import Mathlib

/-!
Verification development for the qitensor repository (version 0.3).

The repository implements a labeled-tensor algebra over dense numeric
arrays: every array is attached to a tensor-product Hilbert space built
from named bra and ket factor atoms, and multiplication, contraction,
transpose, relabeling and indexing are defined in terms of matching
factor labels.

Source files embedded here:
  - qitensor/atom.py      (HilbertAtom: dual pairing, prime, ket/bra
                           basis vectors, Pauli operators)
  - qitensor/array.py     (HilbertArray: tensordot, transpose, relabel,
                           equality, label indexing, svd selection)
  - qitensor/superop.py   (Superoperator.from_function)
  - qitensor/exceptions.py (the error taxonomy)

The files qitensor/space.py and qitensor/basefield.py are part of the
repository but are not available under src/; the definitions that stand
in for them (space product, create_space1/create_space2, eye, basis_vec,
dim, the norm used by superop) are modelled from the specification and
are marked with a doc comment starting with: Modelled from the spec.

Modelling conventions:
  - The numeric base field is a parameter (the source delegates all
    arithmetic to a base-field collaborator); scenario theorems
    instantiate it at a concrete computable field.
  - An atom's index set is embedded as the integer range 0 .. dim-1
    (the source allows arbitrary finite index sequences; every claim
    in scope uses integer ranges), so the source's
    indices.index(value) lookup becomes the bound check value < dim.
  - numpy buffers are embedded as total functions from positional
    multi-indices (List Nat, kets-then-bras canonical axis order) to
    field elements; only entries at indices valid for the space's shape
    are meaningful, and all buffer equalities are stated over those.
  - Python exceptions become an Except monad over the error taxonomy of
    qitensor/exceptions.py; in-place mutation (__setitem__) becomes a
    returned updated array.
  - numpy primitives (np.tensordot followed by the transpose(permute)
    realignment, np.transpose) are embedded by the composite
    assignment-level semantics of the source block that uses them; each
    such definition documents, line by line, the source it translates.
-/

instance {ε δ : Type} [DecidableEq ε] [DecidableEq δ] : DecidableEq (Except ε δ) :=
  fun a b =>
    match a, b with
    | .error e1, .error e2 =>
      if h : e1 = e2 then .isTrue (by rw [h]) else .isFalse (by intro hc; cases hc; exact h rfl)
    | .ok v1, .ok v2 =>
      if h : v1 = v2 then .isTrue (by rw [h]) else .isFalse (by intro hc; cases hc; exact h rfl)
    | .error _, .ok _ => .isFalse (by intro hc; cases hc)
    | .ok _, .error _ => .isFalse (by intro hc; cases hc)

/-- The error taxonomy of qitensor/exceptions.py, plus the plain Python
errors (TypeError, ValueError) that array.py and superop.py raise. -/
inductive QErr where
  | HilbertError (msg : String)
  | MismatchedIndexSetError (msg : String)
  | DuplicatedSpaceError
  | BraKetMixtureError (msg : String)
  | HilbertIndexError (msg : String)
  | IncompatibleBaseFieldError (msg : String)
  | HilbertShapeError
  | NotKetSpaceError (msg : String)
  | HilbertSliceError (msg : String)
  | MismatchedSpaceError (msg : String)
  | TypeError (msg : String)
  | ValueError (msg : String)
deriving DecidableEq, Repr

/-- A HilbertAtom (qitensor/atom.py): an indivisible factor space with a
string label, a finite index set (embedded as 0 .. dim-1) and a duality
flag (`is_dual = true` means bra).  atom.py builds atoms in cross-linked
dual pairs; in this functional embedding the dual is computed by `H`
below, and Python object identity coincides with structural equality. -/
structure HilbertAtom where
  label : String
  dim : Nat
  is_dual : Bool
deriving DecidableEq, Repr

namespace HilbertAtom

/-- The dual (dagger) atom: same label and index set, opposite duality.
In atom.py `__init__` the dual is created once and cross-linked via the
`_H` field, so `a.H.H` is the very same Python object as `a`. -/
def H (a : HilbertAtom) : HilbertAtom :=
  ⟨a.label, a.dim, !a.is_dual⟩

/-- Sort key for the total atom order of atom.py `__cmp__`: primarily by
label, secondarily by duality (ket before bra).  The index-set size is
appended as a final tie-break; atom.py instead raises
MismatchedIndexSetError when two same-labelled atoms have different
index sets, so on any collection it can sort the third component is
never consulted. -/
def key (a : HilbertAtom) : (List Char) ×ₗ (Bool ×ₗ Nat) :=
  toLex (a.label.data, toLex (a.is_dual, a.dim))

theorem key_injective : Function.Injective key := by
  intro a b h
  cases a; cases b
  have h2 := congrArg (fun x => ofLex x) h
  simp only [key, ofLex_toLex, Prod.mk.injEq] at h2
  have h3 := congrArg (fun x => ofLex x) h2.2
  simp only [ofLex_toLex, Prod.mk.injEq] at h3
  simp only [HilbertAtom.mk.injEq]
  exact ⟨String.ext h2.1, h3.2, h3.1⟩

instance : LinearOrder HilbertAtom := LinearOrder.lift' key key_injective

/-- The primed sibling atom (atom.py `prime`): for a ket atom, a fresh
atom whose label carries an appended apostrophe character; for a bra
atom, the dual of the prime of its dual (`self.H.prime.H`). -/
def prime (a : HilbertAtom) : HilbertAtom :=
  if a.is_dual then (HilbertAtom.H ⟨(a.H.label).push (Char.ofNat 39), a.H.dim, a.H.is_dual⟩)
  else ⟨a.label.push (Char.ofNat 39), a.dim, a.is_dual⟩

end HilbertAtom

/-- The canonical ascending enumeration of a multiset of atoms
(insertion sort; any two sorted enumerations of the same multiset
coincide, so this is well-defined on the quotient). -/
def msort (s : Multiset HilbertAtom) : List HilbertAtom :=
  Quot.liftOn s (fun l => l.insertionSort (· ≤ ·)) (by
    intro l1 l2 h
    exact List.eq_of_perm_of_sorted
      ((List.perm_insertionSort _ l1).trans
        ((h : List.Perm l1 l2).trans (List.perm_insertionSort _ l2).symm))
      (List.sorted_insertionSort _ l1) (List.sorted_insertionSort _ l2))

theorem msort_sorted (s : Multiset HilbertAtom) : List.Sorted (· ≤ ·) (msort s) :=
  Quotient.inductionOn s (fun l => List.sorted_insertionSort _ l)

theorem msort_coe (s : Multiset HilbertAtom) : (msort s : Multiset HilbertAtom) = s :=
  Quotient.inductionOn s (fun l => Quot.sound (List.perm_insertionSort _ l))

theorem mem_msort {s : Multiset HilbertAtom} {a : HilbertAtom} :
    a ∈ msort s ↔ a ∈ s := by
  conv_rhs => rw [← msort_coe s]
  exact Multiset.mem_coe.symm

theorem msort_nodup {s : Multiset HilbertAtom} (h : s.Nodup) : (msort s).Nodup := by
  have : Multiset.Nodup (msort s : Multiset HilbertAtom) := by rw [msort_coe]; exact h
  exact this

theorem msort_sorted_lt {s : Multiset HilbertAtom} (h : s.Nodup) :
    List.Sorted (· < ·) (msort s) :=
  List.Sorted.lt_of_le (msort_sorted s) (msort_nodup h)

/-- A HilbertSpace (modelled from the spec, qitensor/space.py not being
available under src/): identity is the pair of the frozenset of ket
atoms and the frozenset of bra atoms. -/
structure HilbertSpace where
  ket_set : Finset HilbertAtom
  bra_set : Finset HilbertAtom

theorem HilbertSpace.eq_iff {A B : HilbertSpace} :
    A = B ↔ A.ket_set = B.ket_set ∧ A.bra_set = B.bra_set := by
  cases A; cases B
  simp

instance : DecidableEq HilbertSpace := fun A B =>
  decidable_of_iff (A.ket_set = B.ket_set ∧ A.bra_set = B.bra_set)
    HilbertSpace.eq_iff.symm

namespace HilbertSpace

/-- Modelled from the spec: the sorted ket list (canonical atom order,
derived attribute of a space). -/
def sorted_kets (s : HilbertSpace) : List HilbertAtom :=
  msort s.ket_set.val

/-- Modelled from the spec: the sorted bra list. -/
def sorted_bras (s : HilbertSpace) : List HilbertAtom :=
  msort s.bra_set.val

/-- The axis list of an array over this space (array.py line 30:
`self.axes = hs.sorted_kets + hs.sorted_bras`). -/
def axes (s : HilbertSpace) : List HilbertAtom :=
  s.sorted_kets ++ s.sorted_bras

/-- Modelled from the spec: the shape, a tuple of index-set sizes,
kets then bras. -/
def shape (s : HilbertSpace) : List Nat :=
  s.axes.map (fun a => a.dim)

/-- Modelled from the spec: the dagger (adjoint) space, swapping every
factor's duality. -/
def H (s : HilbertSpace) : HilbertSpace :=
  ⟨s.bra_set.image HilbertAtom.H, s.ket_set.image HilbertAtom.H⟩

/-- Modelled from the spec: total dimension of a space (product of the
index-set sizes of its factors). -/
def dim (s : HilbertSpace) : Nat :=
  (s.shape).prod

/-- Well-formedness invariant of a space, from the spec's data model:
ket atoms are kets, bra atoms are bras, and no two atoms of the same
duality role share a label. -/
def WF (s : HilbertSpace) : Prop :=
  (∀ a ∈ s.ket_set, a.is_dual = false) ∧
  (∀ a ∈ s.bra_set, a.is_dual = true) ∧
  (∀ a ∈ s.ket_set, ∀ b ∈ s.ket_set, a.label = b.label → a = b) ∧
  (∀ a ∈ s.bra_set, ∀ b ∈ s.bra_set, a.label = b.label → a = b)

instance (s : HilbertSpace) : Decidable s.WF := by
  unfold WF; infer_instance

/-- Modelled from the spec: create_space2 of qitensor/space.py, used by
array.py tensordot — direct construction of a space from a ket set and
a bra set. -/
def create_space2 (kets bras : Finset HilbertAtom) : HilbertSpace :=
  ⟨kets, bras⟩

/-- Modelled from the spec: create_space1 of qitensor/space.py, used by
array.py transpose and indexing — build a space from a collection of
atoms, each joining the ket or bra side according to its duality. -/
def create_space1 (atoms : List HilbertAtom) : HilbertSpace :=
  ⟨(atoms.filter (fun a => a.is_dual = false)).toFinset,
   (atoms.filter (fun a => a.is_dual = true)).toFinset⟩

/-- Modelled from the spec: the Cartesian product of two spaces is the
union of their factor sets; placing two same-labelled atoms in the same
duality role (in particular the very same atom twice, compare the
array.py relabel docstring: a space like ket a, ket a is not allowed)
is a duplicated-space error. -/
def prod (A B : HilbertSpace) : Except QErr HilbertSpace :=
  if (A.ket_set.filter (fun a => ∃ b ∈ B.ket_set, a.label = b.label)).Nonempty ∨
     (A.bra_set.filter (fun a => ∃ b ∈ B.bra_set, a.label = b.label)).Nonempty then
    .error .DuplicatedSpaceError
  else
    .ok ⟨A.ket_set ∪ B.ket_set, A.bra_set ∪ B.bra_set⟩

end HilbertSpace

namespace HilbertAtom

/-- The single-factor space consisting of just this atom, matching the
`ket_set`/`bra_set` properties of qitensor/atom.py. -/
def toSpace (a : HilbertAtom) : HilbertSpace :=
  if a.is_dual then ⟨∅, {a}⟩ else ⟨{a}, ∅⟩

/-- Modelled from the spec: the ket-bra square operator space `a.O`
(the space with this atom as ket factor and its dual as bra factor). -/
def O (a : HilbertAtom) : HilbertSpace :=
  if a.is_dual then ⟨{a.H}, {a}⟩ else ⟨{a}, {a.H}⟩

end HilbertAtom

/-- All valid positional multi-indices for a shape, in row-major
(lexicographic) order: the order in which numpy, and space.py's
index_iter, enumerate the entries of a buffer. -/
def allIdx : List Nat → List (List Nat)
  | [] => [[]]
  | d :: ds => (List.range d).flatMap (fun i => (allIdx ds).map (fun w => i :: w))

/-- Row-major flattening of a positional multi-index, as used by
numpy reshape and by the identity (eye) construction. -/
def flattenIdx : List Nat → List Nat → Nat
  | d :: ds, i :: is => i * ds.prod + flattenIdx (d :: ds).tail is
  | _, _ => 0

/-- A HilbertArray (qitensor/array.py): a dense buffer bound to a
space.  The numpy buffer is embedded as a total function from
positional multi-indices to field elements; the positional axis order
is the canonical one (sorted kets then sorted bras, array.py line 30),
and only indices valid for `space.shape` are meaningful. -/
structure HilbertArray (α : Type) where
  space : HilbertSpace
  nparray : List Nat → α

namespace HilbertArray

variable {α : Type}

/-- The cached axis list of array.py (`self.axes`), giving the physical
axis to atom binding. -/
def axesList (X : HilbertArray α) : List HilbertAtom :=
  X.space.axes

/-- array.py `__eq__` (lines 332-336): False when the spaces differ,
otherwise numpy `np.all` elementwise comparison of the two buffers over
the whole shape grid.  Total (never raises). -/
def arrEq [DecidableEq α] (X Y : HilbertArray α) : Bool :=
  if X.space = Y.space then
    decide (∀ idx ∈ allIdx X.space.shape, X.nparray idx = Y.nparray idx)
  else false

/-- array.py `__ne__` (lines 338-339): the negation of `__eq__`. -/
def arrNe [DecidableEq α] (X Y : HilbertArray α) : Bool :=
  ! (arrEq X Y)

end HilbertArray

namespace HilbertSpace

/-- Modelled from the spec: basis_vec of qitensor/space.py — the array
over this space with a one in the slot of the given (positional)
multi-index and zeros elsewhere. -/
def basis_vec {α : Type} [Zero α] [One α] (S : HilbertSpace) (pos : List Nat) :
    HilbertArray α :=
  ⟨S, fun idx => if idx = pos then 1 else 0⟩

/-- Modelled from the spec: eye of qitensor/space.py — the identity
map.  For a pure ket (resp. bra) space the operator space is completed
with the daggered factors; the buffer carries a one exactly where the
row-major flattened ket index equals the flattened bra index (the
diagonal of the ket-size by bra-size matrix view). -/
def eye {α : Type} [Zero α] [One α] (S : HilbertSpace) : HilbertArray α :=
  let S2 : HilbertSpace :=
    if S.bra_set = ∅ then ⟨S.ket_set, S.ket_set.image HilbertAtom.H⟩
    else if S.ket_set = ∅ then ⟨S.bra_set.image HilbertAtom.H, S.bra_set⟩
    else S
  ⟨S2, fun idx =>
    let nk := S2.sorted_kets.length
    if flattenIdx (S2.sorted_kets.map (fun a => a.dim)) (idx.take nk) =
       flattenIdx (S2.sorted_bras.map (fun a => a.dim)) (idx.drop nk) then 1 else 0⟩

end HilbertSpace

namespace HilbertAtom

variable {α : Type} [Zero α] [One α]

/-- atom.py `ket` (lines 109-134): for a dual atom, a basis vector of
itself; for a ket atom, a basis vector of its dual — so (as the
doctests of atom.py show) the returned array lives in the bra space. -/
def ket (a : HilbertAtom) (idx : Nat) : HilbertArray α :=
  if a.is_dual then HilbertSpace.basis_vec a.toSpace [idx]
  else HilbertSpace.basis_vec a.H.toSpace [idx]

/-- atom.py `bra` (lines 82-107): for a dual atom, a basis vector of
its dual; for a ket atom, a basis vector of itself — the returned
array lives in the ket space. -/
def bra (a : HilbertAtom) (idx : Nat) : HilbertArray α :=
  if a.is_dual then HilbertSpace.basis_vec a.H.toSpace [idx]
  else HilbertSpace.basis_vec a.toSpace [idx]

/-- atom.py `pauliX` (lines 174-193): only for two-index atoms
(otherwise NotImplementedError, embedded as a TypeError); the operator
on `a.O` with buffer rows 0 1 / 1 0. -/
def pauliX (a : HilbertAtom) : Except QErr (HilbertArray α) :=
  if a.dim ≠ 2 then .error (.TypeError "pauliX is only implemented for qubits")
  else .ok ⟨a.O, fun idx => if idx = [0, 1] ∨ idx = [1, 0] then 1 else 0⟩

end HilbertAtom

/-- The duck-typed contraction_spaces argument of array.py tensordot:
None, a frozenset of atoms, or a HilbertSpace. -/
inductive ContractionArg where
  | dflt
  | expSet (s : Finset HilbertAtom)
  | expSpace (S : HilbertSpace)

namespace HilbertArray

variable {α : Type} [CommRing α]

/-- array.py tensordot, lines 157-174: resolve the contraction set.
Default: the dagger-matched intersection of the left bra set with the
right ket set.  For an explicit frozenset, the validation loop at line
165 evaluates `x.is_dual()`, but `is_dual` is a plain bool attribute
(atom.py line 15, read attribute-style at array.py line 178), and a
bool is not callable: every iteration of the loop raises
TypeError (bool object is not callable), for bra and ket atoms alike,
and the NotKetSpaceError raise at line 166 is unreachable.  Only the
empty frozenset, which skips the loop, gets through.  An explicit
space must have no bra factor (else NotKetSpaceError); that branch
reads `contraction_spaces.bra_set` and works as intended. -/
def resolveContraction (hs ohs : HilbertSpace) :
    ContractionArg → Except QErr (Finset HilbertAtom)
  | .dflt => .ok ((hs.bra_set.image HilbertAtom.H) ∩ ohs.ket_set)
  | .expSet s =>
      if s.Nonempty then
        .error (.TypeError "bool object is not callable")
      else .ok s
  | .expSpace S =>
      if S.bra_set.Nonempty then
        .error (.NotKetSpaceError "contraction space must consist of kets")
      else .ok S.ket_set

/-- array.py tensordot, lines 188-214, as one composite: numpy
tensordot contracts, for each atom c of the sorted contraction list,
the axis of `self` holding c.H (axes_self) against the axis of `other`
holding c (axes_other), and the result is then permuted from the raw
td_axes order onto the canonical axes of the result space
(`permute` / `td.transpose(permute)`).  The composite meaning: the
entry of the result at a multi-index over the result axes is the sum,
over one index value per contracted atom, of products of entries of
the operands, each operand indexed by the contracted value on its
contracted axes and by the result multi-index on its free axes. -/
def contractData (X Y : HilbertArray α) (cs : List HilbertAtom)
    (retAxes : List HilbertAtom) : List Nat → α :=
  fun idx =>
    ((allIdx (cs.map (fun a => a.dim))).map (fun w =>
      X.nparray (X.axesList.map (fun a =>
        if a.H ∈ cs then w.getD (cs.indexOf a.H) 0
        else idx.getD (retAxes.indexOf a) 0)) *
      Y.nparray (Y.axesList.map (fun a =>
        if a ∈ cs then w.getD (cs.indexOf a) 0
        else idx.getD (retAxes.indexOf a) 0)))).sum

/-- array.py tensordot (lines 115-216): resolve the contraction set,
build the result space
(Hx kets) x (Hx bras minus dagger C) x (Hy kets minus C) x (Hy bras)
via create_space2 and the space product, and contract the buffers. -/
def tensordot (X Y : HilbertArray α) (carg : ContractionArg) :
    Except QErr (HilbertArray α) :=
  match resolveContraction X.space Y.space carg with
  | .error e => .error e
  | .ok mul_space =>
    let mul_H := mul_space.image HilbertAtom.H
    match HilbertSpace.prod
        (HilbertSpace.create_space2 X.space.ket_set (X.space.bra_set \ mul_H))
        (HilbertSpace.create_space2 (Y.space.ket_set \ mul_space) Y.space.bra_set) with
    | .error e => .error e
    | .ok ret_space =>
        .ok ⟨ret_space, contractData X Y (msort mul_space.val) ret_space.axes⟩

/-- array.py `__mul__` (lines 357-363) on two arrays: tensordot with
the default contraction set. -/
def mul (X Y : HilbertArray α) : Except QErr (HilbertArray α) :=
  tensordot X Y .dflt

/-- array.py transpose (lines 218-279): default subspace is the whole
space; every requested atom must occur among the array's axes in one
duality or the other (else HilbertIndexError); each axis whose
dagger-normalized representative is requested has its duality flipped,
and the buffer is permuted onto the canonical axes of the new space
(the composite semantics of `permute` / `nparray.transpose(permute)`:
the entry at a multi-index over the new axes equals the original entry
at the positions the flipped atoms came from). -/
def transpose (X : HilbertArray α) (tpose_axes : Option HilbertSpace) :
    Except QErr (HilbertArray α) :=
  let ta := tpose_axes.getD X.space
  let braket := ta.bra_set ∪ ta.ket_set
  if (braket.filter (fun x => ¬ (x ∈ X.axesList ∨ x.H ∈ X.axesList))).Nonempty then
    .error (.HilbertIndexError "Hilbert space not part of this array")
  else
    let tpose_atoms := braket.image (fun x => if x.is_dual then x.H else x)
    let flip : HilbertAtom → HilbertAtom := fun x =>
      if (if x.is_dual then x.H else x) ∈ tpose_atoms then x.H else x
    let out_space := HilbertSpace.create_space1 (X.axesList.map flip)
    .ok ⟨out_space, fun idx =>
      X.nparray (X.axesList.map (fun a =>
        idx.getD (out_space.axes.indexOf (flip a)) 0))⟩

/-- array.py relabel (lines 281-330): for two bra spaces, multiply on
the right by the eye array on from.H x to; for two ket spaces, multiply
on the left by the eye array on to x from.H; otherwise
BraKetMixtureError. -/
def relabel (X : HilbertArray α) (from_space to_space : HilbertSpace) :
    Except QErr (HilbertArray α) :=
  if from_space.ket_set = ∅ ∧ to_space.ket_set = ∅ then
    match HilbertSpace.prod from_space.H to_space with
    | .error e => .error e
    | .ok S => X.mul (HilbertSpace.eye S)
  else if from_space.bra_set = ∅ ∧ to_space.bra_set = ∅ then
    match HilbertSpace.prod to_space from_space.H with
    | .error e => .error e
    | .ok S => (HilbertSpace.eye S).mul X
  else
    .error (.BraKetMixtureError "from_space and to_space must both be bras or both be kets")

/-- True when a full buffer index agrees with every fixed (non-slice)
entry of an index key; used to express the write-through of
`__setitem__` (a numpy basic-slice assignment touches exactly the
entries matching the fixed coordinates). -/
def keyMatches (key : List (Option Nat)) (i : List Nat) : Bool :=
  (List.range key.length).all (fun q =>
    match key.getD q none with
    | some v => i.getD q 0 == v
    | none => true)

/-- array.py `_index_key_to_map` plus `_get_set_item` (lines 431-507),
for the flat ordered key form (a tuple of index values or slices,
embedded as List (Option Nat) with none for a slice; index values are
positions, see the module conventions).  Steps, following the source:
the key length must match the axis count (HilbertIndexError); every
fixed value must lie in its atom's index set (HilbertIndexError);
if no free axes remain and do_set is set, the value is written directly
into the backing buffer; the sliced buffer is then read back — a bare
scalar when no free axes remain, otherwise a new array over the space
of the remaining atoms with the slice permuted onto its canonical axes
(and, when do_set is set, the slice is overwritten through the numpy
view, embedded as the masked buffer update). -/
def getSetItem (X : HilbertArray α) (key : List (Option Nat))
    (doSet : Bool) (setVal : α) :
    Except QErr ((α ⊕ HilbertArray α) × HilbertArray α) :=
  if key.length ≠ X.axesList.length then
    .error (.HilbertIndexError "Wrong number of indices given")
  else if ((List.range key.length).filter (fun q =>
      match key.getD q none with
      | some v => ¬ v < (X.axesList.getD q ⟨"", 0, false⟩).dim
      | none => False)).length ≠ 0 then
    .error (.HilbertIndexError "Index set does not contain the given value")
  else
    let out_axes := (List.range key.length).filterMap (fun q =>
      match key.getD q none with
      | some _ => none
      | none => some (X.axesList.getD q ⟨"", 0, false⟩))
    let X2 : HilbertArray α :=
      if doSet then
        ⟨X.space, fun i => if keyMatches key i then setVal else X.nparray i⟩
      else X
    if out_axes.isEmpty then
      .ok (.inl (X2.nparray (key.map (fun o => o.getD 0))), X2)
    else
      let out_space := HilbertSpace.create_space1 out_axes
      .ok (.inr ⟨out_space, fun j =>
        X2.nparray ((List.range key.length).map (fun q =>
          match key.getD q none with
          | some v => v
          | none => j.getD (out_space.axes.indexOf (X.axesList.getD q ⟨"", 0, false⟩)) 0))⟩,
        X2)

/-- array.py `__getitem__` (lines 509-510). -/
def getItem (X : HilbertArray α) (key : List (Option Nat)) :
    Except QErr (α ⊕ HilbertArray α) :=
  (getSetItem X key false 0).map (fun p => p.1)

/-- array.py `__setitem__` (lines 512-513); the in-place mutation is
returned as the updated array. -/
def setItem (X : HilbertArray α) (key : List (Option Nat)) (v : α) :
    Except QErr (HilbertArray α) :=
  (getSetItem X key true v).map (fun p => p.2)

/-- array.py svd (lines 572-611), restricted to the inner-space
selection and validation logic (the numeric decomposition itself is
delegated to the base-field collaborator, which is outside the core):
with no inner_spaces given, full_matrices picks (ket space, daggered
bra space); otherwise the smaller-dimension side is picked, a space
pair that compares equal picks the ket space, and equal sizes with
distinct spaces raise a HilbertError asking the caller to specify.
Then the tuple arity is validated against full_matrices and, for the
full case, both inner spaces must be ket spaces. -/
def svdPick (hs : HilbertSpace) (inner_spaces : Option (List HilbertSpace))
    (full_matrices : Bool) : Except QErr (List HilbertSpace) :=
  let resolved : Except QErr (List HilbertSpace) :=
    match inner_spaces with
    | some l => .ok l
    | none =>
      let bs : HilbertSpace := ⟨∅, hs.bra_set⟩
      let ks : HilbertSpace := ⟨hs.ket_set, ∅⟩
      if full_matrices then .ok [ks, bs.H]
      else
        let bra_size := bs.shape.prod
        let ket_size := ks.shape.prod
        if ks = bs then .ok [ks]
        else if bra_size < ket_size then .ok [bs.H]
        else if ket_size < bra_size then .ok [ks]
        else .error (.HilbertError
          "Please specify which Hilbert space to use for the singular values of this square matrix")
  match resolved with
  | .error e => .error e
  | .ok inner =>
    if full_matrices then
      if inner.length ≠ 2 then
        .error (.ValueError "full_matrices=True requires inner_spaces to be a tuple of length 2")
      else if (inner.getD 0 ⟨∅, ∅⟩).bra_set.Nonempty ∨
              (inner.getD 1 ⟨∅, ∅⟩).bra_set.Nonempty then
        .error (.NotKetSpaceError "not a ket space")
      else .ok inner
    else
      if inner.length ≠ 1 then
        .error (.ValueError "full_matrices=True requires inner_spaces to be a tuple of length 1")
      else .ok inner

end HilbertArray

/-! Supporting lemmas about index enumeration, flattening, and lists. -/

theorem flattenIdx_cons (d : Nat) (ds : List Nat) (i : Nat) (is : List Nat) :
    flattenIdx (d :: ds) (i :: is) = i * ds.prod + flattenIdx ds is := by
  cases ds <;> rfl

theorem mem_allIdx {sh : List Nat} : ∀ {idx : List Nat},
    idx ∈ allIdx sh ↔
      idx.length = sh.length ∧ ∀ q < sh.length, idx.getD q 0 < sh.getD q 0 := by
  induction sh with
  | nil =>
    intro idx
    simp only [allIdx, List.mem_singleton, List.length_nil]
    constructor
    · rintro rfl; simp
    · rintro ⟨h, -⟩; exact List.length_eq_zero.mp h
  | cons d ds ih =>
    intro idx
    simp only [allIdx, List.mem_flatMap, List.mem_map, List.mem_range]
    constructor
    · rintro ⟨i, hi, w, hw, rfl⟩
      obtain ⟨hlen, hval⟩ := ih.mp hw
      refine ⟨by simp [hlen], ?_⟩
      intro q hq
      match q with
      | 0 => simpa using hi
      | Nat.succ q' =>
        simp only [List.getD_cons_succ]
        exact hval q' (by simp only [List.length_cons] at hq; omega)
    · rintro ⟨hlen, hval⟩
      match idx with
      | [] => simp at hlen
      | i :: w =>
        refine ⟨i, by simpa using hval 0 (by simp), w,
          ih.mpr ⟨by simp only [List.length_cons] at hlen; omega, ?_⟩, rfl⟩
        intro q hq
        have := hval (q + 1) (by simp only [List.length_cons]; omega)
        simpa using this

theorem allIdx_length_of_mem {sh idx : List Nat} (h : idx ∈ allIdx sh) :
    idx.length = sh.length :=
  (mem_allIdx.mp h).1

theorem allIdx_nodup : ∀ (sh : List Nat), (allIdx sh).Nodup := by
  intro sh
  induction sh with
  | nil => simp [allIdx]
  | cons d ds ih =>
    simp only [allIdx]
    rw [List.nodup_flatMap]
    constructor
    · intro i _
      exact ih.map (fun a b h => by simpa using h)
    · refine (List.nodup_range d).pairwise_of_forall_ne ?_
      intro i _ j _ hij
      simp only [Function.onFun]
      intro l hl1 hl2
      simp only [List.mem_map] at hl1 hl2
      obtain ⟨w1, -, rfl⟩ := hl1
      obtain ⟨w2, -, h2⟩ := hl2
      exact absurd (by simpa using congrArg (fun t => t.headI) h2.symm) hij

theorem flattenIdx_lt : ∀ {sh idx : List Nat}, idx.length = sh.length →
    (∀ q < sh.length, idx.getD q 0 < sh.getD q 0) → flattenIdx sh idx < sh.prod := by
  intro sh
  induction sh with
  | nil =>
    intro idx hlen _
    have : idx = [] := List.length_eq_zero.mp hlen
    subst this
    simp [flattenIdx]
  | cons d ds ih =>
    intro idx hlen hval
    match idx with
    | [] => simp at hlen
    | i :: is =>
      rw [flattenIdx_cons]
      have hi : i < d := by simpa using hval 0 (by simp)
      have hrec : flattenIdx ds is < ds.prod := by
        refine ih (by simp only [List.length_cons] at hlen; omega) ?_
        intro q hq
        simpa using hval (q + 1) (by simp only [List.length_cons]; omega)
      calc i * ds.prod + flattenIdx ds is < i * ds.prod + ds.prod := by omega
        _ = (i + 1) * ds.prod := by ring
        _ ≤ d * ds.prod := Nat.mul_le_mul_right _ (by omega)
        _ = (d :: ds).prod := by simp

theorem flattenIdx_inj : ∀ {sh i1 i2 : List Nat}, i1 ∈ allIdx sh → i2 ∈ allIdx sh →
    flattenIdx sh i1 = flattenIdx sh i2 → i1 = i2 := by
  intro sh
  induction sh with
  | nil =>
    intro i1 i2 h1 h2 _
    simp only [allIdx, List.mem_singleton] at h1 h2
    rw [h1, h2]
  | cons d ds ih =>
    intro i1 i2 h1 h2 he
    simp only [allIdx, List.mem_flatMap, List.mem_map, List.mem_range] at h1 h2
    obtain ⟨a, ha, w1, hw1, rfl⟩ := h1
    obtain ⟨b, hb, w2, hw2, rfl⟩ := h2
    rw [flattenIdx_cons, flattenIdx_cons] at he
    obtain ⟨hl1, hv1⟩ := mem_allIdx.mp hw1
    obtain ⟨hl2, hv2⟩ := mem_allIdx.mp hw2
    have hf1 : flattenIdx ds w1 < ds.prod := flattenIdx_lt hl1 hv1
    have hf2 : flattenIdx ds w2 < ds.prod := flattenIdx_lt hl2 hv2
    have hab : a = b := by
      rcases Nat.lt_trichotomy a b with h | h | h
      · exfalso
        have : a * ds.prod + ds.prod ≤ b * ds.prod := by
          calc a * ds.prod + ds.prod = (a + 1) * ds.prod := by ring
            _ ≤ b * ds.prod := Nat.mul_le_mul_right _ (by omega)
        omega
      · exact h
      · exfalso
        have : b * ds.prod + ds.prod ≤ a * ds.prod := by
          calc b * ds.prod + ds.prod = (b + 1) * ds.prod := by ring
            _ ≤ a * ds.prod := Nat.mul_le_mul_right _ (by omega)
        omega
    subst hab
    have : flattenIdx ds w1 = flattenIdx ds w2 := by omega
    rw [ih hw1 hw2 this]

theorem listSum_eq_single {α : Type} [AddCommMonoid α] {β : Type} :
    ∀ (l : List β) (f : β → α) (t : β), l.Nodup → t ∈ l →
    (∀ w ∈ l, w ≠ t → f w = 0) → (l.map f).sum = f t := by
  intro l
  induction l with
  | nil => intro f t _ ht; simp at ht
  | cons a l ih =>
    intro f t hnd ht hz
    have hnd2 := hnd
    rw [List.nodup_cons] at hnd2
    rcases List.mem_cons.mp ht with rfl | htl
    · have : (l.map f).sum = 0 := by
        apply List.sum_eq_zero
        intro x hx
        simp only [List.mem_map] at hx
        obtain ⟨w, hw, rfl⟩ := hx
        exact hz w (by simp [hw]) (fun he => hnd2.1 (he ▸ hw))
      simp [this]
    · have ha : f a = 0 := hz a (by simp) (fun he => hnd2.1 (he ▸ htl))
      have := ih f t hnd2.2 htl (fun w hw => hz w (by simp [hw]))
      simp [ha, this]

theorem getD_of_lt {β : Type} {l : List β} {q : Nat} (d : β)
    (h : q < l.length) : l.getD q d = l[q] := by
  rw [List.getD_eq_getElem?_getD, List.getElem?_eq_getElem h]
  rfl

theorem indexOf_getElem_of_nodup {β : Type} [DecidableEq β] {l : List β}
    (hnd : l.Nodup) (q : Nat) (hq : q < l.length) : l.indexOf l[q] = q := by
  have hmem : l[q] ∈ l := List.getElem_mem hq
  have hlt : l.indexOf l[q] < l.length := List.indexOf_lt_length.mpr hmem
  have : l[l.indexOf l[q]] = l[q] := List.getElem_indexOf hlt
  exact (List.Nodup.getElem_inj_iff hnd).mp this

theorem map_getD_indexOf {β : Type} [DecidableEq β] (l : List β) (w : List Nat)
    (hnd : l.Nodup) (hlen : w.length = l.length) :
    l.map (fun c => w.getD (l.indexOf c) 0) = w := by
  apply List.ext_getElem (by simp [hlen])
  intro q hq hq2
  simp only [List.getElem_map]
  rw [indexOf_getElem_of_nodup hnd q (by simpa using hq)]
  rw [getD_of_lt _ (by omega)]

theorem indexOf_map_of_injective {β γ : Type} [DecidableEq β] [DecidableEq γ]
    {f : β → γ} (hf : Function.Injective f) :
    ∀ (l : List β) (a : β), (l.map f).indexOf (f a) = l.indexOf a := by
  intro l a
  induction l with
  | nil => rfl
  | cons b l ih =>
    by_cases hba : b = a
    · subst hba
      simp [List.indexOf_cons_self]
    · rw [List.map_cons, List.indexOf_cons_ne _ (fun he => hba (hf he)),
        List.indexOf_cons_ne _ hba, ih]

/-! Supporting lemmas about atoms, their order, and spaces. -/

namespace HilbertAtom

@[simp] theorem H_H (a : HilbertAtom) : a.H.H = a := by
  cases a; simp [H]

theorem H_injective : Function.Injective H := by
  intro a b h
  have := congrArg H h
  simpa using this

@[simp] theorem H_label (a : HilbertAtom) : a.H.label = a.label := rfl

@[simp] theorem H_dim (a : HilbertAtom) : a.H.dim = a.dim := rfl

@[simp] theorem H_is_dual (a : HilbertAtom) : a.H.is_dual = !a.is_dual := rfl

theorem le_def {a b : HilbertAtom} : a ≤ b ↔ key a ≤ key b := Iff.rfl

theorem le_of_label_lt {a b : HilbertAtom} (h : a.label.data < b.label.data) :
    a ≤ b := by
  rw [le_def, key, key, Prod.Lex.le_iff]
  exact Or.inl h

theorem label_lt_of_le_of_label_ne {a b : HilbertAtom} (hle : a ≤ b)
    (hne : a.label ≠ b.label) : a.label.data < b.label.data := by
  rw [le_def, key, key, Prod.Lex.le_iff] at hle
  rcases hle with h | h
  · exact h
  · exact absurd (String.ext h.1) hne

end HilbertAtom

namespace HilbertSpace

theorem sorted_kets_nodup (S : HilbertSpace) : S.sorted_kets.Nodup :=
  msort_nodup S.ket_set.nodup

theorem sorted_bras_nodup (S : HilbertSpace) : S.sorted_bras.Nodup :=
  msort_nodup S.bra_set.nodup

theorem mem_sorted_kets {S : HilbertSpace} {a : HilbertAtom} :
    a ∈ S.sorted_kets ↔ a ∈ S.ket_set :=
  mem_msort

theorem mem_sorted_bras {S : HilbertSpace} {a : HilbertAtom} :
    a ∈ S.sorted_bras ↔ a ∈ S.bra_set :=
  mem_msort

theorem mem_axes {S : HilbertSpace} {a : HilbertAtom} :
    a ∈ S.axes ↔ a ∈ S.ket_set ∨ a ∈ S.bra_set := by
  simp [axes, mem_sorted_kets, mem_sorted_bras]

theorem axes_nodup {S : HilbertSpace}
    (hk : ∀ a ∈ S.ket_set, a.is_dual = false)
    (hb : ∀ a ∈ S.bra_set, a.is_dual = true) : S.axes.Nodup := by
  rw [axes, List.nodup_append]
  refine ⟨sorted_kets_nodup S, sorted_bras_nodup S, ?_⟩
  intro a ha hb2
  have h1 := hk a (mem_sorted_kets.mp ha)
  have h2 := hb a (mem_sorted_bras.mp hb2)
  rw [h1] at h2
  exact Bool.false_ne_true h2

theorem axes_length (S : HilbertSpace) :
    S.axes.length = S.sorted_kets.length + S.sorted_bras.length := by
  simp [axes]

theorem shape_getD {S : HilbertSpace} {q : Nat} (hq : q < S.axes.length) :
    S.shape.getD q 0 = (S.axes.getD q ⟨"", 0, false⟩).dim := by
  rw [shape, getD_of_lt _ (by simpa using hq), getD_of_lt _ hq]
  simp

/-- Sorting commutes with taking daggers on a label-distinct atom set:
the canonical order compares labels first, and the dagger preserves
labels, so the dagger image of a sorted label-distinct list is again
sorted. -/
theorem msort_image_H (S : Finset HilbertAtom)
    (hd : ∀ a ∈ S, ∀ b ∈ S, a.label = b.label → a = b) :
    msort (S.image HilbertAtom.H).val = (msort S.val).map HilbertAtom.H := by
  have hperm : List.Perm (msort (S.image HilbertAtom.H).val)
      ((msort S.val).map HilbertAtom.H) := by
    rw [List.perm_ext_iff_of_nodup (msort_nodup (S.image HilbertAtom.H).nodup)
      ((msort_nodup S.nodup).map HilbertAtom.H_injective)]
    intro x
    simp only [List.mem_map]
    rw [mem_msort]
    constructor
    · intro hx
      obtain ⟨a, ha, he⟩ := Finset.mem_image.mp hx
      exact ⟨a, mem_msort.mpr ha, he⟩
    · rintro ⟨a, ha, he⟩
      exact Finset.mem_image.mpr ⟨a, mem_msort.mp ha, he⟩
  have hsorted2 : List.Sorted (· ≤ ·) ((msort S.val).map HilbertAtom.H) := by
    have hs : List.Sorted (· < ·) (msort S.val) := msort_sorted_lt S.nodup
    have hmem : List.Pairwise
        (fun a b => a ∈ msort S.val ∧ b ∈ msort S.val ∧ a < b)
        (msort S.val) := List.Pairwise.and_mem.mp hs
    refine List.Pairwise.map _ ?_ hmem
    intro a b hab
    obtain ⟨hma, hmb, hlt⟩ := hab
    have hne : a.label ≠ b.label := by
      intro he
      have := hd a (mem_msort.mp hma) b (mem_msort.mp hmb) he
      exact absurd this (ne_of_lt hlt)
    exact HilbertAtom.le_of_label_lt
      (by simpa using HilbertAtom.label_lt_of_le_of_label_ne (le_of_lt hlt) hne)
  exact List.eq_of_perm_of_sorted hperm (msort_sorted _) hsorted2

end HilbertSpace

/-! Concrete sample atoms used by scenario theorems and witnesses. -/

def qubitA : HilbertAtom := ⟨"a", 2, false⟩

def qubitB : HilbertAtom := ⟨"b", 2, false⟩

def qubitC : HilbertAtom := ⟨"c", 2, false⟩

/-! Claim theorems. -/

/-- C8: for every atom a, the dual of the dual of a is a itself (in
atom.py the `_H` field cross-links the two atoms of a dual pair at
construction time, so `a.H.H` is the very same Python object; object
identity is rendered in this functional embedding as equality), and
prime commutes with dual: `a.prime.H = a.H.prime`. -/
theorem C8_dual_involution_prime_commutes :
    ∀ a : HilbertAtom, a.H.H = a ∧ a.prime.H = a.H.prime := by
  intro a
  refine ⟨HilbertAtom.H_H a, ?_⟩
  rcases a with ⟨l, d, bdual⟩
  cases bdual <;> simp [HilbertAtom.prime, HilbertAtom.H]

/-- C10: the equality test of array.py never raises when the spaces of
the two arrays differ: it returns False whenever the spaces differ, and
otherwise returns True exactly when every buffer entry of the left
array equals the corresponding entry of the right one; `__ne__` is the
negation of `__eq__`. -/
theorem C10_eq_never_raises (α : Type) [CommRing α] [DecidableEq α]
    (X Y : HilbertArray α) :
    (X.space ≠ Y.space → HilbertArray.arrEq X Y = false) ∧
    (X.space = Y.space →
      (HilbertArray.arrEq X Y = true ↔
        ∀ idx ∈ allIdx X.space.shape, X.nparray idx = Y.nparray idx)) ∧
    HilbertArray.arrNe X Y = ! HilbertArray.arrEq X Y := by
  refine ⟨?_, ?_, rfl⟩
  · intro h
    simp [HilbertArray.arrEq, h]
  · intro h
    simp [HilbertArray.arrEq, h]

/-- Witness for C10 at concrete inputs: two arrays over different
spaces compare unequal (without raising), and an array compares equal
to itself. -/
theorem C10_eq_never_raises_witness :
    HilbertArray.arrEq (α := ℚ) ⟨⟨{qubitA}, ∅⟩, fun _ => 0⟩ ⟨⟨∅, ∅⟩, fun _ => 0⟩ = false ∧
    HilbertArray.arrNe (α := ℚ) ⟨⟨{qubitA}, ∅⟩, fun _ => 0⟩ ⟨⟨∅, ∅⟩, fun _ => 0⟩ =
      ! HilbertArray.arrEq (α := ℚ) ⟨⟨{qubitA}, ∅⟩, fun _ => 0⟩ ⟨⟨∅, ∅⟩, fun _ => 0⟩ := by
  constructor
  · exact (C10_eq_never_raises ℚ _ _).1 (by decide)
  · exact (C10_eq_never_raises ℚ ⟨⟨{qubitA}, ∅⟩, fun _ => 0⟩ ⟨⟨∅, ∅⟩, fun _ => 0⟩).2.2

/-- C4 (code bug): the claim says an explicit contraction set holding a
bra atom fails with the not-ket-space error.  The space form does
(array.py lines 168-170).  But the frozenset form's duality check at
line 165 calls the plain bool attribute `is_dual`, so every nonempty
explicit frozenset — bra atoms and ket atoms alike — fails with
TypeError (bool object is not callable) and never reaches the
NotKetSpaceError raise on that path. -/
theorem C4_contraction_set_code_bug (α : Type) [CommRing α]
    (X Y : HilbertArray α) :
    (∀ s : Finset HilbertAtom, s.Nonempty →
      HilbertArray.tensordot X Y (.expSet s) =
        .error (.TypeError "bool object is not callable")) ∧
    (∀ s : Finset HilbertAtom, s.Nonempty →
      HilbertArray.tensordot X Y (.expSet s) ≠
        .error (.NotKetSpaceError "contraction space must consist of kets")) ∧
    (∀ S : HilbertSpace, S.bra_set.Nonempty →
      HilbertArray.tensordot X Y (.expSpace S) =
        .error (.NotKetSpaceError "contraction space must consist of kets")) := by
  refine ⟨?_, ?_, ?_⟩
  · intro s hs
    rw [HilbertArray.tensordot, HilbertArray.resolveContraction, if_pos hs]
  · intro s hs heq
    rw [HilbertArray.tensordot, HilbertArray.resolveContraction, if_pos hs] at heq
    exact absurd (Except.error.inj heq) (by decide)
  · intro S hS
    rw [HilbertArray.tensordot, HilbertArray.resolveContraction, if_pos hS]

/-- Witness for C4 at concrete inputs: an explicit frozenset holding the
bra atom of label a fails with TypeError, not NotKetSpaceError; so does
a frozenset holding only the ket atom a; an explicit bra space still
fails with NotKetSpaceError. -/
theorem C4_contraction_set_code_bug_witness :
    (HilbertArray.tensordot (α := ℚ) ⟨⟨{qubitA}, ∅⟩, fun _ => 0⟩ ⟨⟨∅, ∅⟩, fun _ => 0⟩
        (.expSet {qubitA.H}) =
      .error (.TypeError "bool object is not callable")) ∧
    (HilbertArray.tensordot (α := ℚ) ⟨⟨{qubitA}, ∅⟩, fun _ => 0⟩ ⟨⟨∅, ∅⟩, fun _ => 0⟩
        (.expSet {qubitA.H}) ≠
      .error (.NotKetSpaceError "contraction space must consist of kets")) ∧
    (HilbertArray.tensordot (α := ℚ) ⟨⟨{qubitA}, ∅⟩, fun _ => 0⟩ ⟨⟨∅, ∅⟩, fun _ => 0⟩
        (.expSet {qubitA}) =
      .error (.TypeError "bool object is not callable")) ∧
    (HilbertArray.tensordot (α := ℚ) ⟨⟨{qubitA}, ∅⟩, fun _ => 0⟩ ⟨⟨∅, ∅⟩, fun _ => 0⟩
        (.expSpace ⟨∅, {qubitA.H}⟩) =
      .error (.NotKetSpaceError "contraction space must consist of kets")) := by
  refine ⟨?_, ?_, ?_, ?_⟩
  · exact (C4_contraction_set_code_bug ℚ _ _).1 {qubitA.H} ⟨qubitA.H, by simp⟩
  · exact (C4_contraction_set_code_bug ℚ _ _).2.1 {qubitA.H} ⟨qubitA.H, by simp⟩
  · exact (C4_contraction_set_code_bug ℚ _ _).1 {qubitA} ⟨qubitA, by simp⟩
  · exact (C4_contraction_set_code_bug ℚ _ _).2.2 ⟨∅, {qubitA.H}⟩ ⟨qubitA.H, by simp⟩

/-- Counterexample for C2: the claim says a disambiguation error is
raised only when the ket space equals the bra space, and that equal
distinct sizes are always resolvable.  On the square array space with
ket factor a and bra factor b (each of size two) the ket space differs
from the bra space and the sizes are equal — yet svd with
full_matrices=False and no inner_spaces raises the disambiguation
HilbertError. -/
theorem C2_svd_pick_counterexample :
    HilbertArray.svdPick ⟨{qubitA}, {qubitB.H}⟩ none false =
      .error (.HilbertError
        "Please specify which Hilbert space to use for the singular values of this square matrix") ∧
    (⟨{qubitA}, ∅⟩ : HilbertSpace) ≠ (⟨∅, {qubitB.H}⟩ : HilbertSpace) := by
  exact ⟨by decide, by decide⟩

/-- C2 amended: with full_matrices=False and no inner_spaces, if the
ket-side and bra-side dimensions differ the smaller-dimension side's
natural space is chosen automatically; whenever the sizes are equal
and the ket space differs from the bra space — including equal distinct
sizes — the disambiguation HilbertError is raised; in the degenerate
case where the ket space equals the bra space (possible only when both
are empty) the ket space is chosen. -/
theorem C2_svd_pick_amended (hs : HilbertSpace) :
    ((⟨∅, hs.bra_set⟩ : HilbertSpace).shape.prod <
        (⟨hs.ket_set, ∅⟩ : HilbertSpace).shape.prod →
      HilbertArray.svdPick hs none false =
        .ok [HilbertSpace.H ⟨∅, hs.bra_set⟩]) ∧
    ((⟨hs.ket_set, ∅⟩ : HilbertSpace).shape.prod <
        (⟨∅, hs.bra_set⟩ : HilbertSpace).shape.prod →
      HilbertArray.svdPick hs none false = .ok [⟨hs.ket_set, ∅⟩]) ∧
    ((⟨hs.ket_set, ∅⟩ : HilbertSpace).shape.prod =
        (⟨∅, hs.bra_set⟩ : HilbertSpace).shape.prod →
      (⟨hs.ket_set, ∅⟩ : HilbertSpace) ≠ (⟨∅, hs.bra_set⟩ : HilbertSpace) →
      HilbertArray.svdPick hs none false =
        .error (.HilbertError
          "Please specify which Hilbert space to use for the singular values of this square matrix")) ∧
    ((⟨hs.ket_set, ∅⟩ : HilbertSpace) = (⟨∅, hs.bra_set⟩ : HilbertSpace) →
      HilbertArray.svdPick hs none false = .ok [⟨hs.ket_set, ∅⟩]) := by
  refine ⟨?_, ?_, ?_, ?_⟩
  · intro hlt
    have hne : (⟨hs.ket_set, ∅⟩ : HilbertSpace) ≠ (⟨∅, hs.bra_set⟩ : HilbertSpace) := by
      intro he
      rw [he] at hlt
      exact lt_irrefl _ hlt
    simp only [HilbertArray.svdPick]
    rw [if_neg (by decide : ¬(false = true)), if_neg hne, if_pos hlt]
    rfl
  · intro hlt
    have hne : (⟨hs.ket_set, ∅⟩ : HilbertSpace) ≠ (⟨∅, hs.bra_set⟩ : HilbertSpace) := by
      intro he
      rw [he] at hlt
      exact lt_irrefl _ hlt
    simp only [HilbertArray.svdPick]
    rw [if_neg (by decide : ¬(false = true)), if_neg hne,
      if_neg (by omega), if_pos hlt]
    rfl
  · intro heq hne
    simp only [HilbertArray.svdPick]
    rw [if_neg (by decide : ¬(false = true)), if_neg hne,
      if_neg (by omega), if_neg (by omega)]
  · intro he
    simp only [HilbertArray.svdPick]
    rw [if_neg (by decide : ¬(false = true)), if_pos he]
    rfl

/-- Witness for C2 amended, at concrete inputs: on the space with ket
factor a of size two and bra factor of label b and size three, the
smaller (ket) side is picked; on the square a-b space the
disambiguation error is raised. -/
theorem C2_svd_pick_amended_witness :
    HilbertArray.svdPick ⟨{qubitA}, {⟨"b", 3, true⟩}⟩ none false =
      .ok [⟨{qubitA}, ∅⟩] ∧
    HilbertArray.svdPick ⟨{qubitA}, {qubitB.H}⟩ none false =
      .error (.HilbertError
        "Please specify which Hilbert space to use for the singular values of this square matrix") := by
  constructor
  · exact (C2_svd_pick_amended ⟨{qubitA}, {⟨"b", 3, true⟩}⟩).2.1 (by decide)
  · exact (C2_svd_pick_amended ⟨{qubitA}, {qubitB.H}⟩).2.2.1 (by decide) (by decide)


/-- Compare a fallible array result against an expected array with the
equality test of array.py: False on any error. -/
def exceptArrEq {α : Type} [DecidableEq α] (x : Except QErr (HilbertArray α))
    (y : HilbertArray α) : Bool :=
  match x with
  | .ok R => HilbertArray.arrEq R y
  | .error _ => false

/-- The error carried by a fallible result, if any. -/
def exceptErr {β : Type} (x : Except QErr β) : Option QErr :=
  match x with
  | .error e => some e
  | .ok _ => none

/-- C3 (evidence of a code bug): for the two-index atom of label a,
atom.py's `ket` returns a basis vector whose space is the bra space
(its own doctest prints a HilbertArray over a bra space), so the
product pauliX times ket 0 contracts nothing and dies with a
duplicated-space error instead of equalling ket 1 — while the identical
computation with `bra` (the ket-space basis vector, as multiplication
and the module documentation intend) does map the 0 basis vector to
the 1 basis vector, and pauliX applied twice does equal the identity
operator on the square space a.O. -/
theorem C3_pauliX_ket_code_bug :
    (HilbertAtom.ket (α := ℤ) qubitA 0).space = ⟨∅, {qubitA.H}⟩ ∧
    exceptErr ((HilbertAtom.pauliX (α := ℤ) qubitA).bind
      (fun P => P.mul (HilbertAtom.ket qubitA 0))) = some .DuplicatedSpaceError ∧
    exceptArrEq ((HilbertAtom.pauliX (α := ℤ) qubitA).bind
      (fun P => P.mul (HilbertAtom.bra qubitA 0))) (HilbertAtom.bra qubitA 1) = true ∧
    exceptArrEq ((HilbertAtom.pauliX (α := ℤ) qubitA).bind
      (fun P => (HilbertAtom.pauliX (α := ℤ) qubitA).bind (fun Q => P.mul Q)))
      (HilbertSpace.eye qubitA.O) = true := by
  refine ⟨by decide, by decide, by decide, by decide⟩

/-- The default contraction set of array.py tensordot (line 158): the
dagger image of the left bra set intersected with the right ket set. -/
def HilbertArray.defaultC (Hx Hy : HilbertSpace) : Finset HilbertAtom :=
  (Hx.bra_set.image HilbertAtom.H) ∩ Hy.ket_set

theorem HilbertSpace.prod_ok {A B S : HilbertSpace}
    (h : HilbertSpace.prod A B = .ok S) :
    S = ⟨A.ket_set ∪ B.ket_set, A.bra_set ∪ B.bra_set⟩ := by
  unfold HilbertSpace.prod at h
  split at h
  · cases h
  · cases h
    rfl

theorem HilbertArray.tensordot_dflt_eq {α : Type} [CommRing α]
    (X Y : HilbertArray α) :
    X.tensordot Y .dflt =
      match HilbertSpace.prod
          (HilbertSpace.create_space2 X.space.ket_set
            (X.space.bra_set \ (HilbertArray.defaultC X.space Y.space).image HilbertAtom.H))
          (HilbertSpace.create_space2
            (Y.space.ket_set \ HilbertArray.defaultC X.space Y.space) Y.space.bra_set) with
      | .error e => .error e
      | .ok ret_space =>
          .ok ⟨ret_space, HilbertArray.contractData X Y
            (msort (HilbertArray.defaultC X.space Y.space).val) ret_space.axes⟩ := rfl

/-- C1: multiplication of two arrays is tensordot with the default
contraction set C = (ket atoms of Hy) intersected with the daggers of
the bra atoms of Hx; whenever the default tensordot succeeds, the
result's space is
(Hx kets) x (Hx bras minus dagger C) x (Hy kets minus C) x (Hy bras),
the space product being factor-set union; and for qubit atoms a, b, c,
any X over bra-ket space |a><b,c| and Y over |c><a| give a successful
default tensordot with result space |a><a,b|, equal to X * Y. -/
theorem C1_mul_is_default_tensordot (α : Type) [CommRing α] :
    (∀ X Y : HilbertArray α, X.mul Y = X.tensordot Y .dflt) ∧
    (∀ X Y : HilbertArray α,
      HilbertArray.resolveContraction X.space Y.space .dflt =
        .ok (HilbertArray.defaultC X.space Y.space)) ∧
    (∀ X Y : HilbertArray α, ∀ R, X.tensordot Y .dflt = .ok R →
      R.space = ⟨X.space.ket_set ∪
          (Y.space.ket_set \ HilbertArray.defaultC X.space Y.space),
        (X.space.bra_set \
            (HilbertArray.defaultC X.space Y.space).image HilbertAtom.H) ∪
          Y.space.bra_set⟩) ∧
    (∀ dX dY : List Nat → α,
      ∃ R, HilbertArray.tensordot ⟨⟨{qubitA}, {qubitB.H, qubitC.H}⟩, dX⟩
          ⟨⟨{qubitC}, {qubitA.H}⟩, dY⟩ .dflt = .ok R ∧
        R.space = ⟨{qubitA}, {qubitA.H, qubitB.H}⟩ ∧
        HilbertArray.mul ⟨⟨{qubitA}, {qubitB.H, qubitC.H}⟩, dX⟩
            ⟨⟨{qubitC}, {qubitA.H}⟩, dY⟩ =
          HilbertArray.tensordot ⟨⟨{qubitA}, {qubitB.H, qubitC.H}⟩, dX⟩
            ⟨⟨{qubitC}, {qubitA.H}⟩, dY⟩ .dflt) := by
  refine ⟨fun X Y => rfl, fun X Y => rfl, ?_, ?_⟩
  · intro X Y R h
    rw [HilbertArray.tensordot_dflt_eq] at h
    generalize hp : HilbertSpace.prod

        (HilbertSpace.create_space2 X.space.ket_set
          (X.space.bra_set \ (HilbertArray.defaultC X.space Y.space).image HilbertAtom.H))
        (HilbertSpace.create_space2
          (Y.space.ket_set \ HilbertArray.defaultC X.space Y.space) Y.space.bra_set) = res at h
    cases res with
    | error e => cases h
    | ok S =>
      cases h
      exact HilbertSpace.prod_ok hp
  · intro dX dY
    have hprod : HilbertSpace.prod
        (HilbertSpace.create_space2 ({qubitA} : Finset HilbertAtom)
          (({qubitB.H, qubitC.H} : Finset HilbertAtom) \
            (HilbertArray.defaultC ⟨{qubitA}, {qubitB.H, qubitC.H}⟩
              ⟨{qubitC}, {qubitA.H}⟩).image HilbertAtom.H))
        (HilbertSpace.create_space2
          (({qubitC} : Finset HilbertAtom) \
            HilbertArray.defaultC ⟨{qubitA}, {qubitB.H, qubitC.H}⟩ ⟨{qubitC}, {qubitA.H}⟩)
          ({qubitA.H} : Finset HilbertAtom)) =
        .ok ⟨{qubitA}, {qubitA.H, qubitB.H}⟩ := by decide
    refine ⟨⟨⟨{qubitA}, {qubitA.H, qubitB.H}⟩,
      HilbertArray.contractData ⟨⟨{qubitA}, {qubitB.H, qubitC.H}⟩, dX⟩
        ⟨⟨{qubitC}, {qubitA.H}⟩, dY⟩
        (msort (HilbertArray.defaultC ⟨{qubitA}, {qubitB.H, qubitC.H}⟩
          ⟨{qubitC}, {qubitA.H}⟩).val)
        (⟨{qubitA}, {qubitA.H, qubitB.H}⟩ : HilbertSpace).axes⟩, ?_, rfl, rfl⟩
    rw [HilbertArray.tensordot_dflt_eq, hprod]

def sampleX : HilbertArray ℤ := ⟨⟨{qubitA}, {qubitB.H, qubitC.H}⟩, fun _ => 0⟩

def sampleY : HilbertArray ℤ := ⟨⟨{qubitC}, {qubitA.H}⟩, fun _ => 0⟩

def sampleR : HilbertArray ℤ :=
  ⟨⟨{qubitA}, {qubitA.H, qubitB.H}⟩,
    HilbertArray.contractData sampleX sampleY
      (msort (HilbertArray.defaultC ⟨{qubitA}, {qubitB.H, qubitC.H}⟩
        ⟨{qubitC}, {qubitA.H}⟩).val)
      (⟨{qubitA}, {qubitA.H, qubitB.H}⟩ : HilbertSpace).axes⟩

/-- Witness for C1 at concrete inputs: for the zero arrays over
|a><b,c| and |c><a|, multiplication equals default tensordot, and the
result space satisfies the four-factor formula. -/
theorem C1_mul_is_default_tensordot_witness :
    HilbertArray.mul sampleX sampleY = HilbertArray.tensordot sampleX sampleY .dflt ∧
    sampleR.space = ⟨sampleX.space.ket_set ∪
        (sampleY.space.ket_set \ HilbertArray.defaultC sampleX.space sampleY.space),
      (sampleX.space.bra_set \
          (HilbertArray.defaultC sampleX.space sampleY.space).image HilbertAtom.H) ∪
        sampleY.space.bra_set⟩ := by
  constructor
  · exact (C1_mul_is_default_tensordot ℤ).1 sampleX sampleY
  · refine (C1_mul_is_default_tensordot ℤ).2.2.1 sampleX sampleY sampleR ?_
    rw [HilbertArray.tensordot_dflt_eq]
    rw [show HilbertSpace.prod
        (HilbertSpace.create_space2 sampleX.space.ket_set
          (sampleX.space.bra_set \
            (HilbertArray.defaultC sampleX.space sampleY.space).image HilbertAtom.H))
        (HilbertSpace.create_space2
          (sampleY.space.ket_set \ HilbertArray.defaultC sampleX.space sampleY.space)
          sampleY.space.bra_set) =
      .ok ⟨{qubitA}, {qubitA.H, qubitB.H}⟩ from by decide]
    rfl

theorem HilbertAtom.toSpace_braket (a : HilbertAtom) :
    a.toSpace.bra_set ∪ a.toSpace.ket_set = {a} := by
  unfold HilbertAtom.toSpace
  by_cases h : a.is_dual <;> simp [h]

theorem HilbertAtom.norm_H (a : HilbertAtom) :
    (if a.H.is_dual then a.H.H else a.H) = (if a.is_dual then a.H else a) := by
  by_cases h : a.is_dual <;> simp [h]

theorem ite_singleton_nonempty {p : Prop} [Decidable p] (a : HilbertAtom) :
    (if p then ({a} : Finset HilbertAtom) else ∅).Nonempty ↔ p := by
  by_cases h : p <;> simp [h]

/-- C5: for any atom, transposing over the atom's own one-factor space
and transposing over its dagger's are the same operation (equal
results, and in particular equal arrays whenever the atom occurs among
the array's axes in either duality); requesting transposition over an
atom absent in both dualities raises HilbertIndexError; and calling
transpose with no argument is transposing over the whole space. -/
theorem C5_transpose_selector_dagger (α : Type) [CommRing α]
    (X : HilbertArray α) (a : HilbertAtom) :
    (X.transpose (some a.toSpace) = X.transpose (some a.H.toSpace)) ∧
    (¬ (a ∈ X.axesList ∨ a.H ∈ X.axesList) →
      X.transpose (some a.toSpace) =
        .error (.HilbertIndexError "Hilbert space not part of this array")) ∧
    X.transpose none = X.transpose (some X.space) := by
  refine ⟨?_, ?_, rfl⟩
  · simp only [HilbertArray.transpose, Option.getD_some, HilbertAtom.toSpace_braket,
      Finset.filter_singleton, Finset.image_singleton, HilbertAtom.norm_H]
    refine if_congr ?_ rfl rfl
    rw [ite_singleton_nonempty, ite_singleton_nonempty, HilbertAtom.H_H, or_comm]
  · intro hnmem
    simp only [HilbertArray.transpose, Option.getD_some, HilbertAtom.toSpace_braket,
      Finset.filter_singleton, Finset.image_singleton, HilbertAtom.norm_H]
    rw [if_pos ((ite_singleton_nonempty a).mpr hnmem)]

/-- Witness for C5 at concrete inputs: transposing the zero array over
|a> on the atom of label a equals transposing on its dagger, and
transposing on the absent atom of label b raises HilbertIndexError. -/
theorem C5_transpose_selector_dagger_witness :
    HilbertArray.transpose (α := ℤ) ⟨⟨{qubitA}, ∅⟩, fun _ => 0⟩ (some qubitA.toSpace) =
      HilbertArray.transpose ⟨⟨{qubitA}, ∅⟩, fun _ => 0⟩ (some qubitA.H.toSpace) ∧
    HilbertArray.transpose (α := ℤ) ⟨⟨{qubitA}, ∅⟩, fun _ => 0⟩ (some qubitB.toSpace) =
      .error (.HilbertIndexError "Hilbert space not part of this array") := by
  constructor
  · exact (C5_transpose_selector_dagger ℤ ⟨⟨{qubitA}, ∅⟩, fun _ => 0⟩ qubitA).1
  · exact (C5_transpose_selector_dagger ℤ ⟨⟨{qubitA}, ∅⟩, fun _ => 0⟩ qubitB).2.1
      (by decide)

/-- The updated array that `_get_set_item` leaves behind: the masked
buffer overwrite when do_set is set, the array itself otherwise. -/
def HilbertArray.gsUpdate {α : Type} [CommRing α] (X : HilbertArray α)
    (key : List (Option Nat)) (doSet : Bool) (setVal : α) : HilbertArray α :=
  if doSet then ⟨X.space, fun i => if HilbertArray.keyMatches key i then setVal else X.nparray i⟩
  else X

theorem key_all_some {key : List (Option Nat)}
    (hall : ∀ o ∈ key, o.isSome = true) {q : Nat} (hq : q < key.length) :
    ∃ w, key.getD q none = some w := by
  have hmem : key[q] ∈ key := List.getElem_mem hq
  have hs := hall key[q] hmem
  rw [getD_of_lt _ hq]
  cases hk : key[q] with
  | none => rw [hk] at hs; simp at hs
  | some w => exact ⟨w, rfl⟩

theorem keyMatches_map_getD (key : List (Option Nat))
    (hall : ∀ o ∈ key, o.isSome = true) :
    HilbertArray.keyMatches key (key.map (fun o => o.getD 0)) = true := by
  unfold HilbertArray.keyMatches
  rw [List.all_eq_true]
  intro q hq
  rw [List.mem_range] at hq
  obtain ⟨w, hw⟩ := key_all_some hall hq
  rw [hw]
  have h1 : (key.map (fun o => o.getD 0)).getD q 0 = w := by
    rw [getD_of_lt _ (by simpa using hq), List.getElem_map]
    rw [getD_of_lt _ hq] at hw
    rw [hw]
    rfl
  show ((key.map (fun o => o.getD 0)).getD q 0 == w) = true
  rw [h1]
  exact beq_self_eq_true w

theorem getSetItem_full {α : Type} [CommRing α] (X : HilbertArray α)
    (key : List (Option Nat)) (doSet : Bool) (setVal : α)
    (hlen : key.length = X.axesList.length)
    (hvalid : ∀ q < key.length, ∀ w, key.getD q none = some w →
      w < (X.axesList.getD q ⟨"", 0, false⟩).dim)
    (hall : ∀ o ∈ key, o.isSome = true) :
    HilbertArray.getSetItem X key doSet setVal =
      .ok (.inl ((HilbertArray.gsUpdate X key doSet setVal).nparray
          (key.map (fun o => o.getD 0))),
        HilbertArray.gsUpdate X key doSet setVal) := by
  have hfil : ((List.range key.length).filter (fun q =>
      match key.getD q none with
      | some v => ¬ v < (X.axesList.getD q ⟨"", 0, false⟩).dim
      | none => False)) = [] := by
    rw [List.filter_eq_nil_iff]
    intro q hq
    rw [List.mem_range] at hq
    obtain ⟨w, hw⟩ := key_all_some hall hq
    rw [hw]
    simpa using hvalid q hq w hw
  have hout : ((List.range key.length).filterMap (fun q =>
      match key.getD q none with
      | some _ => none
      | none => some (X.axesList.getD q ⟨"", 0, false⟩))) = [] := by
    rw [List.filterMap_eq_nil_iff]
    intro q hq
    rw [List.mem_range] at hq
    obtain ⟨w, hw⟩ := key_all_some hall hq
    rw [hw]
  unfold HilbertArray.getSetItem
  rw [if_neg (by omega)]
  rw [if_neg (by rw [hfil]; simp)]
  simp only [hout, List.isEmpty_nil, if_pos]
  rfl

/-- C7: for an array X, a full index key fixing every axis with a
value inside each atom's index set, and a scalar v, the assignment
writes v through to the backing buffer at the resolved position, and
reading the same key back returns the bare scalar v (the zero-free-axes
case of `_get_set_item`). -/
theorem C7_set_get_roundtrip (α : Type) [CommRing α] (X : HilbertArray α)
    (key : List (Option Nat)) (v : α)
    (hlen : key.length = X.axesList.length)
    (hvalid : ∀ q < key.length, ∀ w, key.getD q none = some w →
      w < (X.axesList.getD q ⟨"", 0, false⟩).dim)
    (hall : ∀ o ∈ key, o.isSome = true) :
    X.setItem key v = .ok (HilbertArray.gsUpdate X key true v) ∧
    (HilbertArray.gsUpdate X key true v).getItem key = .ok (.inl v) ∧
    (HilbertArray.gsUpdate X key true v).nparray
      (key.map (fun o => o.getD 0)) = v := by
  have hval : (HilbertArray.gsUpdate X key true v).nparray
      (key.map (fun o => o.getD 0)) = v := by
    show (if HilbertArray.keyMatches key (key.map (fun o => o.getD 0))
      then v else X.nparray (key.map (fun o => o.getD 0))) = v
    rw [keyMatches_map_getD key hall]
    simp
  refine ⟨?_, ?_, hval⟩
  · unfold HilbertArray.setItem
    rw [getSetItem_full X key true v hlen hvalid hall]
    rfl
  · unfold HilbertArray.getItem
    rw [getSetItem_full (HilbertArray.gsUpdate X key true v) key false 0 hlen hvalid hall]
    simp only [Except.map]
    rw [show HilbertArray.gsUpdate (HilbertArray.gsUpdate X key true v) key false 0 =
      HilbertArray.gsUpdate X key true v from rfl]
    rw [hval]

/-- Witness for C7 at concrete inputs: on a 2x2 integer array over
|a><a|, writing 7 at position (1, 0) and reading it back returns 7,
and the buffer holds 7 at that position. -/
theorem C7_set_get_roundtrip_witness :
    HilbertArray.setItem (α := ℤ) ⟨qubitA.O, fun _ => 0⟩ [some 1, some 0] 7 =
      .ok (HilbertArray.gsUpdate ⟨qubitA.O, fun _ => 0⟩ [some 1, some 0] true 7) ∧
    (HilbertArray.gsUpdate (α := ℤ) ⟨qubitA.O, fun _ => 0⟩ [some 1, some 0] true 7).getItem
      [some 1, some 0] = .ok (.inl 7) ∧
    (HilbertArray.gsUpdate (α := ℤ) ⟨qubitA.O, fun _ => 0⟩ [some 1, some 0] true 7).nparray
      [1, 0] = 7 := by
  have h := C7_set_get_roundtrip ℤ ⟨qubitA.O, fun _ => 0⟩ [some 1, some 0] 7
    (by decide) (by decide) (by decide)
  exact ⟨h.1, h.2.1, h.2.2⟩

/-- Modelled from the spec: the ket-bra square operator space `S.O` of
qitensor/space.py (every factor completed with its dagger), used by
superop.py for domain and codomain operator spaces. -/
def HilbertSpace.O (S : HilbertSpace) : HilbertSpace :=
  ⟨S.ket_set ∪ S.bra_set.image HilbertAtom.H,
   (S.ket_set ∪ S.bra_set.image HilbertAtom.H).image HilbertAtom.H⟩

/-- superop.py `_to_ket_space`: a pure ket space is kept, a pure bra
space is daggered, a self-adjoint operator space keeps its ket part,
anything else is a NotKetSpaceError. -/
def toKetSpace (spc : HilbertSpace) : Except QErr HilbertSpace :=
  if spc.bra_set = ∅ then .ok spc
  else if spc.ket_set = ∅ then .ok spc.H
  else if spc = spc.O then .ok ⟨spc.ket_set, ∅⟩
  else .error (.NotKetSpaceError "need a bra, ket, or self-adjoint space")

/-- A Superoperator (superop.py): a linear map on operator spaces,
stored as its matrix over the row-major vectorizations of the output
and input operator spaces.  (The matrix-shape check of `__init__` is
enforced here by construction: the matrix is a total function indexed
by the two vectorization positions.) -/
structure Superoperator where
  in_space : HilbertSpace
  out_space : HilbertSpace
  m : Nat → Nat → ℚ

/-- superop.py `__call__`, restricted to an argument living exactly on
the domain operator space (the probe used by from_function is a
density on in_space, so this is the only case from_function needs):
the output buffer entry at a multi-index over out_space.O is the
matrix row at that index's row-major position, contracted against the
vectorization of the argument. -/
def applySuper (E : Superoperator) (rho : HilbertArray ℚ) : HilbertArray ℚ :=
  ⟨E.out_space.O, fun idx =>
    ((List.range (allIdx E.in_space.O.shape).length).map (fun i =>
      E.m (flattenIdx E.out_space.O.shape idx) i *
        rho.nparray ((allIdx E.in_space.O.shape).getD i []))).sum⟩

/-- array.py `__sub__` and `_assert_same_axes` (lines 80-83, 390-404):
subtraction demands identical axis lists (else HilbertIndexError) and
is entrywise on the buffers. -/
def subArr (X Y : HilbertArray ℚ) : Except QErr (HilbertArray ℚ) :=
  if X.space.axes ≠ Y.space.axes then
    .error (.HilbertIndexError "Mismatched HilbertSpaces")
  else .ok ⟨X.space, fun i => X.nparray i - Y.nparray i⟩

/-- Modelled from the spec: the squared Frobenius norm (basefield.py,
which supplies mat_norm, is not under src/; superop.py compares
norm against toler = 1e-12, and comparing squares against toler
squared is the same comparison for nonnegative values). -/
def normSq (X : HilbertArray ℚ) : ℚ :=
  ((allIdx X.space.shape).map (fun idx => X.nparray idx ^ 2)).sum

/-- The square of superop.py's tolerance toler = 1e-12. -/
def tolerSq : ℚ := 1 / 10 ^ 24

/-- superop.py from_function lines 273-276: the linear map sampled
against the identity basis of the input operator space — column i of
the matrix is the flattened output of f on the i-th basis vector of
in_space.O, the output space being the ket part of f's value on the
identity (line 268). -/
def buildSuper (inS : HilbertSpace) (f : HilbertArray ℚ → HilbertArray ℚ) :
    Superoperator :=
  ⟨inS, ⟨(f (HilbertSpace.eye inS)).space.ket_set, ∅⟩,
    fun r i =>
      (f (HilbertSpace.basis_vec inS.O ((allIdx inS.O.shape).getD i []))).nparray
        ((allIdx (⟨(f (HilbertSpace.eye inS)).space.ket_set, ∅⟩ : HilbertSpace).O.shape).getD r [])⟩

/-- superop.py from_function (lines 249-294): normalize the input
space; derive the output space from f on the identity and reject a
non-self-adjoint output space (MismatchedSpaceError); sample f against
the identity basis to build the matrix; then compare the built map
with f on the probe (the random density of the source) and raise
ValueError 'function was not linear' when they differ beyond the
tolerance, otherwise return the built Superoperator. -/
def fromFunction (in_space0 : HilbertSpace)
    (f : HilbertArray ℚ → HilbertArray ℚ) (probe : HilbertArray ℚ) :
    Except QErr Superoperator :=
  match toKetSpace in_space0 with
  | .error e => .error e
  | .ok in_space =>
    if (f (HilbertSpace.eye in_space)).space ≠ (f (HilbertSpace.eye in_space)).space.H then
      .error (.MismatchedSpaceError "out space was not symmetric")
    else
      match subArr (applySuper (buildSuper in_space f) probe) (f probe) with
      | .error e => .error e
      | .ok diff =>
        if tolerSq < normSq diff then .error (.ValueError "function was not linear")
        else .ok (buildSuper in_space f)

/-- C9: from_function builds the linear map by sampling f against the
identity basis of the input operator space (the matrix of the returned
Superoperator is exactly that sample); it raises the validation error
'function was not linear' precisely when the built map disagrees with
f on the probe beyond the tolerance; and when no error is raised the
returned Superoperator agrees with f on that probe within the
tolerance. -/
theorem C9_from_function_linear_check (ins : HilbertSpace)
    (f : HilbertArray ℚ → HilbertArray ℚ) (probe : HilbertArray ℚ)
    (inS : HilbertSpace) (h1 : toKetSpace ins = .ok inS)
    (h2 : (f (HilbertSpace.eye inS)).space = (f (HilbertSpace.eye inS)).space.H)
    (D : HilbertArray ℚ)
    (h3 : subArr (applySuper (buildSuper inS f) probe) (f probe) = .ok D) :
    (fromFunction ins f probe = .error (.ValueError "function was not linear") ↔
      tolerSq < normSq D) ∧
    (¬ tolerSq < normSq D → fromFunction ins f probe = .ok (buildSuper inS f)) ∧
    (buildSuper inS f).m = fun r i =>
      (f (HilbertSpace.basis_vec inS.O ((allIdx inS.O.shape).getD i []))).nparray
        ((allIdx (buildSuper inS f).out_space.O.shape).getD r []) := by
  have hred : fromFunction ins f probe =
      (if tolerSq < normSq D then .error (.ValueError "function was not linear")
       else .ok (buildSuper inS f)) := by
    unfold fromFunction
    rw [h1]
    show (if (f (HilbertSpace.eye inS)).space ≠ (f (HilbertSpace.eye inS)).space.H then
        Except.error (QErr.MismatchedSpaceError "out space was not symmetric")
      else
        match subArr (applySuper (buildSuper inS f) probe) (f probe) with
        | Except.error e => Except.error e
        | Except.ok diff =>
          if tolerSq < normSq diff then Except.error (QErr.ValueError "function was not linear")
          else Except.ok (buildSuper inS f)) = _
    rw [if_neg (not_not_intro h2), h3]
  refine ⟨?_, ?_, rfl⟩
  · by_cases hc : tolerSq < normSq D
    · simp [hred, hc]
    · simp [hred, hc]
  · intro hc
    rw [hred, if_neg hc]

def atomU : HilbertAtom := ⟨"u", 1, false⟩

def probeW : HilbertArray ℚ := ⟨⟨{atomU}, {atomU.H}⟩, fun _ => 1⟩

def diffW : HilbertArray ℚ :=
  ⟨(applySuper (buildSuper ⟨{atomU}, ∅⟩ (fun x => x)) probeW).space,
   fun i => (applySuper (buildSuper ⟨{atomU}, ∅⟩ (fun x => x)) probeW).nparray i -
     probeW.nparray i⟩

/-- Witness for C9 at a concrete input: from_function on the identity
map over the one-index atom u, probed with the unit density, raises no
error and returns the sampled Superoperator. -/
theorem C9_from_function_linear_check_witness :
    fromFunction ⟨{atomU}, ∅⟩ (fun x => x) probeW =
      .ok (buildSuper ⟨{atomU}, ∅⟩ (fun x => x)) := by
  have hns : normSq diffW = 0 := by
    show ((((1 : ℚ) * 1 + 0) - 1) ^ 2 + 0) = 0
    norm_num
  refine (C9_from_function_linear_check ⟨{atomU}, ∅⟩ (fun x => x) probeW ⟨{atomU}, ∅⟩
    (by decide) (by decide) diffW ?_).2.1 ?_
  · unfold subArr
    rw [if_neg (by decide)]
    rfl
  · rw [hns]
    norm_num [tolerSq]

/-! Supporting lemmas for the relabel buffer-preservation proof. -/

/-- The sum of a delta row (matched by row-major flattening) against
any coefficient function collapses to the matched coefficient. -/
theorem sum_flatten_delta {α : Type} [CommRing α] (sh : List Nat)
    (t : List Nat) (ht : t ∈ allIdx sh) (g : List Nat → α) :
    ((allIdx sh).map (fun w =>
      (if flattenIdx sh t = flattenIdx sh w then (1 : α) else 0) * g w)).sum = g t := by
  have := listSum_eq_single (allIdx sh)
    (fun w => (if flattenIdx sh t = flattenIdx sh w then (1 : α) else 0) * g w) t
    (allIdx_nodup sh) ht ?_
  · rw [this]
    simp
  · intro w hw hne
    have hne2 : flattenIdx sh t ≠ flattenIdx sh w :=
      fun he => hne (flattenIdx_inj hw ht he.symm)
    simp [hne2]

/-- The positional substitution determined by two equally long sorted
atom lists: an atom occurring in the first list is replaced by the
atom at the same position of the second, anything else is kept. -/
def substIn (l1 l2 : List HilbertAtom) (a : HilbertAtom) : HilbertAtom :=
  if a ∈ l1 then l2.getD (l1.indexOf a) ⟨"", 0, false⟩ else a

theorem substIn_dim {l1 l2 : List HilbertAtom}
    (hd : l2.map (fun a => a.dim) = l1.map (fun a => a.dim)) (a : HilbertAtom) :
    (substIn l1 l2 a).dim = a.dim := by
  unfold substIn
  split
  · rename_i h
    have hlen : l2.length = l1.length := by
      have := congrArg List.length hd
      simpa using this
    have hi : l1.indexOf a < l1.length := List.indexOf_lt_length.mpr h
    have h2 : (l2.map (fun a => a.dim)).getD (l1.indexOf a) 0 =
        (l1.map (fun a => a.dim)).getD (l1.indexOf a) 0 := by rw [hd]
    have e1 : (l2.map (fun a => a.dim)).getD (l1.indexOf a) 0 =
        (l2.get ⟨l1.indexOf a, by omega⟩).dim := by
      rw [getD_of_lt _ (by simpa using (by omega : l1.indexOf a < l2.length))]
      rw [List.getElem_map]
      rfl
    have e2 : (l1.map (fun a => a.dim)).getD (l1.indexOf a) 0 = a.dim := by
      rw [getD_of_lt _ (by simpa using hi), List.getElem_map, List.getElem_indexOf hi]
    rw [e1, e2] at h2
    rw [getD_of_lt _ (by omega : l1.indexOf a < l2.length)]
    exact h2
  · rfl

theorem prod_eq_ok {A B : HilbertSpace}
    (h1 : ∀ a ∈ A.ket_set, ∀ b ∈ B.ket_set, a.label ≠ b.label)
    (h2 : ∀ a ∈ A.bra_set, ∀ b ∈ B.bra_set, a.label ≠ b.label) :
    HilbertSpace.prod A B = .ok ⟨A.ket_set ∪ B.ket_set, A.bra_set ∪ B.bra_set⟩ := by
  unfold HilbertSpace.prod
  rw [if_neg]
  intro hcon
  rcases hcon with h | h
  · obtain ⟨a, ha⟩ := h
    rw [Finset.mem_filter] at ha
    obtain ⟨b, hb, he⟩ := ha.2
    exact h1 a ha.1 b hb he
  · obtain ⟨a, ha⟩ := h
    rw [Finset.mem_filter] at ha
    obtain ⟨b, hb, he⟩ := ha.2
    exact h2 a ha.1 b hb he

theorem image_H_H (s : Finset HilbertAtom) :
    (s.image HilbertAtom.H).image HilbertAtom.H = s := by
  ext a
  simp only [Finset.mem_image]
  constructor
  · rintro ⟨b, ⟨c, hc, rfl⟩, rfl⟩
    simpa [HilbertAtom.H_H] using hc
  · intro ha
    exact ⟨a.H, ⟨a, ha, rfl⟩, HilbertAtom.H_H a⟩

theorem contractData_eye_left {α : Type} [CommRing α]
    (E X : HilbertArray α) (st cs retAxes : List HilbertAtom) (idx : List Nat)
    (hEax : E.axesList = st ++ cs.map HilbertAtom.H)
    (hEdata : ∀ j, E.nparray j =
      if flattenIdx (st.map (fun a => a.dim)) (j.take st.length) =
         flattenIdx ((cs.map HilbertAtom.H).map (fun a => a.dim)) (j.drop st.length)
      then (1 : α) else 0)
    (hcsnd : cs.Nodup)
    (hcsket : ∀ a ∈ cs, a.is_dual = false)
    (hstket : ∀ a ∈ st, a.is_dual = false)
    (hdims : st.map (fun a => a.dim) = cs.map (fun a => a.dim))
    (hu : st.map (fun a => idx.getD (retAxes.indexOf a) 0) ∈
      allIdx (cs.map (fun a => a.dim))) :
    HilbertArray.contractData E X cs retAxes idx =
      X.nparray (X.axesList.map (fun b =>
        if b ∈ cs then
          idx.getD (retAxes.indexOf (st.getD (cs.indexOf b) ⟨"", 0, false⟩)) 0
        else idx.getD (retAxes.indexOf b) 0)) := by
  have hstlen : st.length = cs.length := by
    have := congrArg List.length hdims
    simpa using this
  have hterm : ∀ w ∈ allIdx (cs.map (fun a => a.dim)),
      E.nparray (E.axesList.map (fun a =>
        if a.H ∈ cs then w.getD (cs.indexOf a.H) 0 else idx.getD (retAxes.indexOf a) 0)) *
      X.nparray (X.axesList.map (fun a =>
        if a ∈ cs then w.getD (cs.indexOf a) 0 else idx.getD (retAxes.indexOf a) 0)) =
      (if flattenIdx (cs.map (fun a => a.dim))
          (st.map (fun a => idx.getD (retAxes.indexOf a) 0)) =
         flattenIdx (cs.map (fun a => a.dim)) w then (1 : α) else 0) *
      X.nparray (X.axesList.map (fun a =>
        if a ∈ cs then w.getD (cs.indexOf a) 0 else idx.getD (retAxes.indexOf a) 0)) := by
    intro w hw
    congr 1
    rw [hEax, List.map_append, List.map_map]
    have hmap1 : st.map (fun a =>
        if a.H ∈ cs then w.getD (cs.indexOf a.H) 0 else idx.getD (retAxes.indexOf a) 0) =
        st.map (fun a => idx.getD (retAxes.indexOf a) 0) := by
      apply List.map_congr_left
      intro a ha
      rw [if_neg]
      intro hmem
      have h1 := hcsket a.H hmem
      have h2 := hstket a ha
      rw [HilbertAtom.H_is_dual, h2] at h1
      simp at h1
    have hmap2 : cs.map ((fun a =>
        if a.H ∈ cs then w.getD (cs.indexOf a.H) 0 else idx.getD (retAxes.indexOf a) 0) ∘
          HilbertAtom.H) = w := by
      have hpt : ∀ c ∈ cs, ((fun a =>
          if a.H ∈ cs then w.getD (cs.indexOf a.H) 0 else idx.getD (retAxes.indexOf a) 0) ∘
            HilbertAtom.H) c = w.getD (cs.indexOf c) 0 := by
        intro c hc
        show (if c.H.H ∈ cs then w.getD (cs.indexOf c.H.H) 0
          else idx.getD (retAxes.indexOf c.H) 0) = w.getD (cs.indexOf c) 0
        rw [HilbertAtom.H_H c]
        rw [if_pos hc]
      rw [List.map_congr_left hpt]
      exact map_getD_indexOf cs w hcsnd (by rw [allIdx_length_of_mem hw]; simp)
    rw [hmap1, hmap2, hEdata]
    have hlen1 : (st.map (fun a => idx.getD (retAxes.indexOf a) 0)).length = st.length := by
      simp
    rw [show ((st.map fun a => idx.getD (retAxes.indexOf a) 0) ++ w).take st.length =
        st.map (fun a => idx.getD (retAxes.indexOf a) 0) from by
      rw [← hlen1]; exact List.take_left _ _]
    rw [show ((st.map fun a => idx.getD (retAxes.indexOf a) 0) ++ w).drop st.length = w from by
      rw [← hlen1]; exact List.drop_left _ _]
    rw [show ((cs.map HilbertAtom.H).map fun a => a.dim) = cs.map (fun a => a.dim) from by
      rw [List.map_map]
      apply List.map_congr_left
      intro a _
      simp]
    rw [hdims]
  unfold HilbertArray.contractData
  rw [List.map_congr_left hterm]
  rw [sum_flatten_delta (cs.map fun a => a.dim)
    (st.map (fun a => idx.getD (retAxes.indexOf a) 0)) hu
    (fun w => X.nparray (X.axesList.map (fun a =>
      if a ∈ cs then w.getD (cs.indexOf a) 0 else idx.getD (retAxes.indexOf a) 0)))]
  congr 1
  apply List.map_congr_left
  intro b _
  by_cases hb : b ∈ cs
  · rw [if_pos hb, if_pos hb]
    have hi : cs.indexOf b < st.length := by
      rw [hstlen]
      exact List.indexOf_lt_length.mpr hb
    rw [getD_of_lt _ (by simpa using hi), List.getElem_map, getD_of_lt _ hi]
  · rw [if_neg hb, if_neg hb]

theorem eye_mixed {α : Type} [Zero α] [One α] {S : HilbertSpace}
    (hb : ¬ S.bra_set = ∅) (hk : ¬ S.ket_set = ∅) :
    HilbertSpace.eye (α := α) S = ⟨S, fun idx =>
      if flattenIdx (S.sorted_kets.map (fun a => a.dim)) (idx.take S.sorted_kets.length) =
         flattenIdx (S.sorted_bras.map (fun a => a.dim)) (idx.drop S.sorted_kets.length)
      then 1 else 0⟩ := by
  unfold HilbertSpace.eye
  simp only [eq_false hb, eq_false hk, if_false]

theorem relabel_ket_buffer {α : Type} [CommRing α]
    (X : HilbertArray α) (fromS toS : HilbertSpace)
    (hXwf : X.space.WF) (hfwf : fromS.WF) (htwf : toS.WF)
    (hfb : fromS.bra_set = ∅) (htb : toS.bra_set = ∅)
    (hne : fromS.ket_set.Nonempty)
    (hsub : fromS.ket_set ⊆ X.space.ket_set)
    (hdims : toS.sorted_kets.map (fun a => a.dim) =
      fromS.sorted_kets.map (fun a => a.dim))
    (hdisj : ∀ a ∈ toS.ket_set, ∀ b ∈ X.space.ket_set \ fromS.ket_set, a.label ≠ b.label)
    (horder : X.space.axes.map (substIn fromS.sorted_kets toS.sorted_kets) =
      (⟨toS.ket_set ∪ (X.space.ket_set \ fromS.ket_set), X.space.bra_set⟩ :
        HilbertSpace).axes) :
    ∃ R, X.relabel fromS toS = .ok R ∧
      R.space = ⟨toS.ket_set ∪ (X.space.ket_set \ fromS.ket_set), X.space.bra_set⟩ ∧
      ∀ idx ∈ allIdx X.space.shape, R.nparray idx = X.nparray idx := by
  have hdistf : ∀ a ∈ fromS.ket_set, ∀ b ∈ fromS.ket_set, a.label = b.label → a = b :=
    hfwf.2.2.1
  have hstlen : toS.sorted_kets.length = fromS.sorted_kets.length := by
    have := congrArg List.length hdims
    simpa using this
  have hKtne : toS.ket_set.Nonempty := by
    obtain ⟨a, ha⟩ := hne
    have h1 : a ∈ fromS.sorted_kets := HilbertSpace.mem_sorted_kets.mpr ha
    have h2 : 0 < toS.sorted_kets.length := by
      rw [hstlen]
      exact List.length_pos.mpr (List.ne_nil_of_mem h1)
    have h3 : toS.sorted_kets[0] ∈ toS.sorted_kets := List.getElem_mem h2
    exact ⟨toS.sorted_kets[0], HilbertSpace.mem_sorted_kets.mp h3⟩
  have hSEb : ¬ (⟨toS.ket_set, fromS.ket_set.image HilbertAtom.H⟩ :
      HilbertSpace).bra_set = ∅ := by
    show ¬ fromS.ket_set.image HilbertAtom.H = ∅
    exact Finset.nonempty_iff_ne_empty.mp (hne.image _)
  have hSEk : ¬ (⟨toS.ket_set, fromS.ket_set.image HilbertAtom.H⟩ :
      HilbertSpace).ket_set = ∅ := by
    show ¬ toS.ket_set = ∅
    exact Finset.nonempty_iff_ne_empty.mp hKtne
  have heye := eye_mixed (α := α) hSEb hSEk
  have hSE : HilbertSpace.prod toS fromS.H =
      .ok ⟨toS.ket_set, fromS.ket_set.image HilbertAtom.H⟩ := by
    have h0 : HilbertSpace.prod toS fromS.H = .ok ⟨toS.ket_set ∪ (fromS.H).ket_set,
        toS.bra_set ∪ (fromS.H).bra_set⟩ := by
      apply prod_eq_ok
      · intro a _ b hb
        exfalso
        have he : (fromS.H).ket_set = ∅ := by
          show fromS.bra_set.image HilbertAtom.H = ∅
          rw [hfb, Finset.image_empty]
        rw [he] at hb
        exact absurd hb (Finset.not_mem_empty b)
      · intro a ha
        rw [htb] at ha
        exact absurd ha (Finset.not_mem_empty a)
    rw [h0]
    congr 1
    rw [HilbertSpace.eq_iff]
    constructor
    · show toS.ket_set ∪ fromS.bra_set.image HilbertAtom.H = toS.ket_set
      rw [hfb, Finset.image_empty, Finset.union_empty]
    · show toS.bra_set ∪ fromS.ket_set.image HilbertAtom.H =
        fromS.ket_set.image HilbertAtom.H
      rw [htb, Finset.empty_union]
  have hrel : X.relabel fromS toS =
      (HilbertSpace.eye ⟨toS.ket_set, fromS.ket_set.image HilbertAtom.H⟩).mul X := by
    unfold HilbertArray.relabel
    rw [if_neg (by rintro ⟨h1, -⟩; exact Finset.nonempty_iff_ne_empty.mp hne h1)]
    rw [if_pos ⟨hfb, htb⟩, hSE]
  have hEsp : (HilbertSpace.eye (α := α)
      ⟨toS.ket_set, fromS.ket_set.image HilbertAtom.H⟩).space =
      ⟨toS.ket_set, fromS.ket_set.image HilbertAtom.H⟩ := by
    rw [heye]
  have hC : HilbertArray.defaultC
      (⟨toS.ket_set, fromS.ket_set.image HilbertAtom.H⟩ : HilbertSpace) X.space =
      fromS.ket_set := by
    show ((fromS.ket_set.image HilbertAtom.H).image HilbertAtom.H) ∩ X.space.ket_set =
      fromS.ket_set
    rw [image_H_H, Finset.inter_eq_left.mpr hsub]
  have hp2 : HilbertSpace.prod
      (HilbertSpace.create_space2
        (⟨toS.ket_set, fromS.ket_set.image HilbertAtom.H⟩ : HilbertSpace).ket_set
        ((⟨toS.ket_set, fromS.ket_set.image HilbertAtom.H⟩ : HilbertSpace).bra_set \
          fromS.ket_set.image HilbertAtom.H))
      (HilbertSpace.create_space2 (X.space.ket_set \ fromS.ket_set) X.space.bra_set) =
      .ok ⟨toS.ket_set ∪ (X.space.ket_set \ fromS.ket_set), X.space.bra_set⟩ := by
    have h0 := prod_eq_ok
      (A := HilbertSpace.create_space2 toS.ket_set
        (fromS.ket_set.image HilbertAtom.H \ fromS.ket_set.image HilbertAtom.H))
      (B := HilbertSpace.create_space2 (X.space.ket_set \ fromS.ket_set) X.space.bra_set)
      (by intro a ha b hb; exact hdisj a ha b hb)
      (by intro a ha; rw [Finset.sdiff_self] at ha; exact absurd ha (Finset.not_mem_empty a))
    rw [h0]
    congr 1
    rw [HilbertSpace.eq_iff]
    refine ⟨rfl, ?_⟩
    show fromS.ket_set.image HilbertAtom.H \ fromS.ket_set.image HilbertAtom.H ∪
      X.space.bra_set = X.space.bra_set
    rw [Finset.sdiff_self, Finset.empty_union]
  have hmul : (HilbertSpace.eye (α := α)
      ⟨toS.ket_set, fromS.ket_set.image HilbertAtom.H⟩).mul X =
      .ok ⟨⟨toS.ket_set ∪ (X.space.ket_set \ fromS.ket_set), X.space.bra_set⟩,
        HilbertArray.contractData
          (HilbertSpace.eye ⟨toS.ket_set, fromS.ket_set.image HilbertAtom.H⟩) X
          (msort fromS.ket_set.val)
          (⟨toS.ket_set ∪ (X.space.ket_set \ fromS.ket_set), X.space.bra_set⟩ :
            HilbertSpace).axes⟩ := by
    unfold HilbertArray.mul
    rw [HilbertArray.tensordot_dflt_eq, hEsp, hC, hp2]
  refine ⟨_, hrel.trans hmul, rfl, ?_⟩
  intro idx hidx
  have hidxlen : idx.length = X.space.axes.length := by
    have := allIdx_length_of_mem hidx
    simpa [HilbertSpace.shape] using this
  have hbras : (⟨toS.ket_set, fromS.ket_set.image HilbertAtom.H⟩ :
      HilbertSpace).sorted_bras = fromS.sorted_kets.map HilbertAtom.H :=
    HilbertSpace.msort_image_H fromS.ket_set hdistf
  have hlen_ra : (⟨toS.ket_set ∪ (X.space.ket_set \ fromS.ket_set), X.space.bra_set⟩ :
      HilbertSpace).axes.length = X.space.axes.length := by
    have := congrArg List.length horder
    simpa using this.symm
  have hretnd : (⟨toS.ket_set ∪ (X.space.ket_set \ fromS.ket_set), X.space.bra_set⟩ :
      HilbertSpace).axes.Nodup := by
    apply HilbertSpace.axes_nodup
    · intro a ha
      rcases Finset.mem_union.mp ha with h | h
      · exact htwf.1 a h
      · exact hXwf.1 a (Finset.mem_sdiff.mp h).1
    · exact hXwf.2.1
  have hsubstax : ∀ q, q < X.space.axes.length →
      substIn fromS.sorted_kets toS.sorted_kets
        (X.space.axes.getD q ⟨"", 0, false⟩) =
      (⟨toS.ket_set ∪ (X.space.ket_set \ fromS.ket_set), X.space.bra_set⟩ :
        HilbertSpace).axes.getD q ⟨"", 0, false⟩ := by
    intro q hq
    have h1 := congrArg (fun l => l.getD q (⟨"", 0, false⟩ : HilbertAtom)) horder
    simp only at h1
    rw [getD_of_lt _ (by simpa using hq), List.getElem_map, ← getD_of_lt _ hq] at h1
    exact h1
  have hidxof : ∀ q, q < X.space.axes.length →
      (⟨toS.ket_set ∪ (X.space.ket_set \ fromS.ket_set), X.space.bra_set⟩ :
        HilbertSpace).axes.indexOf
        (substIn fromS.sorted_kets toS.sorted_kets
          (X.space.axes.getD q ⟨"", 0, false⟩)) = q := by
    intro q hq
    rw [hsubstax q hq, getD_of_lt _ (by omega)]
    exact indexOf_getElem_of_nodup hretnd q (by omega)
  show HilbertArray.contractData
    (HilbertSpace.eye ⟨toS.ket_set, fromS.ket_set.image HilbertAtom.H⟩) X
    fromS.sorted_kets
    (⟨toS.ket_set ∪ (X.space.ket_set \ fromS.ket_set), X.space.bra_set⟩ :
      HilbertSpace).axes idx = X.nparray idx
  have hu : toS.sorted_kets.map (fun a => idx.getD
      ((⟨toS.ket_set ∪ (X.space.ket_set \ fromS.ket_set), X.space.bra_set⟩ :
        HilbertSpace).axes.indexOf a) 0) ∈
      allIdx (fromS.sorted_kets.map (fun a => a.dim)) := by
    rw [mem_allIdx]
    constructor
    · simp [hstlen]
    · intro q hq
      have hq2 : q < toS.sorted_kets.length := by
        rw [hstlen]
        simpa using hq
      rw [getD_of_lt _ (by simpa using hq2), List.getElem_map]
      have hamem : toS.sorted_kets[q] ∈
          (⟨toS.ket_set ∪ (X.space.ket_set \ fromS.ket_set), X.space.bra_set⟩ :
            HilbertSpace).axes := by
        rw [HilbertSpace.mem_axes]
        left
        exact Finset.mem_union_left _
          (HilbertSpace.mem_sorted_kets.mp (List.getElem_mem hq2))
      have hq3 : (⟨toS.ket_set ∪ (X.space.ket_set \ fromS.ket_set), X.space.bra_set⟩ :
          HilbertSpace).axes.indexOf toS.sorted_kets[q] <
          (⟨toS.ket_set ∪ (X.space.ket_set \ fromS.ket_set), X.space.bra_set⟩ :
            HilbertSpace).axes.length := List.indexOf_lt_length.mpr hamem
      have hq4 : (⟨toS.ket_set ∪ (X.space.ket_set \ fromS.ket_set), X.space.bra_set⟩ :
          HilbertSpace).axes.indexOf toS.sorted_kets[q] < X.space.axes.length := by
        omega
      have hvx := (mem_allIdx.mp hidx).2
        ((⟨toS.ket_set ∪ (X.space.ket_set \ fromS.ket_set), X.space.bra_set⟩ :
          HilbertSpace).axes.indexOf toS.sorted_kets[q])
        (by simpa [HilbertSpace.shape] using hq4)
      rw [HilbertSpace.shape_getD hq4] at hvx
      have hsdim : (X.space.axes.getD ((⟨toS.ket_set ∪ (X.space.ket_set \ fromS.ket_set),
          X.space.bra_set⟩ : HilbertSpace).axes.indexOf toS.sorted_kets[q])
          ⟨"", 0, false⟩).dim = toS.sorted_kets[q].dim := by
        have h6 := hsubstax ((⟨toS.ket_set ∪ (X.space.ket_set \ fromS.ket_set),
          X.space.bra_set⟩ : HilbertSpace).axes.indexOf toS.sorted_kets[q]) hq4
        rw [getD_of_lt _ hq3, List.getElem_indexOf hq3] at h6
        have h7 := substIn_dim hdims
          (X.space.axes.getD ((⟨toS.ket_set ∪ (X.space.ket_set \ fromS.ket_set),
            X.space.bra_set⟩ : HilbertSpace).axes.indexOf toS.sorted_kets[q])
            ⟨"", 0, false⟩)
        rw [h6] at h7
        exact h7.symm
      rw [hsdim] at hvx
      have hdim2 : toS.sorted_kets[q].dim =
          (fromS.sorted_kets.map (fun a => a.dim)).getD q 0 := by
        have h8 := congrArg (fun l => l.getD q 0) hdims
        simp only at h8
        rw [← h8, getD_of_lt _ (by simpa using hq2), List.getElem_map]
      rw [← hdim2]
      exact hvx
  rw [contractData_eye_left _ X toS.sorted_kets fromS.sorted_kets _ idx
    (by rw [HilbertArray.axesList, hEsp]
        show toS.sorted_kets ++ (⟨toS.ket_set, fromS.ket_set.image HilbertAtom.H⟩ :
          HilbertSpace).sorted_bras = _
        rw [hbras])
    (by intro j
        rw [heye]
        show (if flattenIdx _ _ = flattenIdx ((⟨toS.ket_set,
            fromS.ket_set.image HilbertAtom.H⟩ : HilbertSpace).sorted_bras.map
            (fun a => a.dim)) _ then (1 : α) else 0) = _
        rw [hbras]
        rfl)
    (HilbertSpace.sorted_kets_nodup fromS)
    (fun a ha => hfwf.1 a (HilbertSpace.mem_sorted_kets.mp ha))
    (fun a ha => htwf.1 a (HilbertSpace.mem_sorted_kets.mp ha))
    hdims hu]
  congr 1
  have haxl : X.axesList = X.space.axes := rfl
  rw [haxl]
  have hfeq : (fun b => if b ∈ fromS.sorted_kets then
      idx.getD ((⟨toS.ket_set ∪ (X.space.ket_set \ fromS.ket_set), X.space.bra_set⟩ :
        HilbertSpace).axes.indexOf
        (toS.sorted_kets.getD (fromS.sorted_kets.indexOf b) ⟨"", 0, false⟩)) 0
    else idx.getD ((⟨toS.ket_set ∪ (X.space.ket_set \ fromS.ket_set),
      X.space.bra_set⟩ : HilbertSpace).axes.indexOf b) 0) =
    (fun c => idx.getD ((⟨toS.ket_set ∪ (X.space.ket_set \ fromS.ket_set),
      X.space.bra_set⟩ : HilbertSpace).axes.indexOf c) 0) ∘
      substIn fromS.sorted_kets toS.sorted_kets := by
    funext b
    show _ = idx.getD ((⟨toS.ket_set ∪ (X.space.ket_set \ fromS.ket_set),
      X.space.bra_set⟩ : HilbertSpace).axes.indexOf
        (substIn fromS.sorted_kets toS.sorted_kets b)) 0
    by_cases hb : b ∈ fromS.sorted_kets
    · simp only [substIn, if_pos hb]
    · simp only [substIn, if_neg hb]
  rw [hfeq, ← List.map_map, horder]
  exact map_getD_indexOf _ idx hretnd (by omega)

theorem contractData_eye_right {α : Type} [CommRing α]
    (X E : HilbertArray α) (st cs retAxes : List HilbertAtom) (idx : List Nat)
    (hEax : E.axesList = cs ++ st)
    (hEdata : ∀ j, E.nparray j =
      if flattenIdx (cs.map (fun a => a.dim)) (j.take cs.length) =
         flattenIdx (st.map (fun a => a.dim)) (j.drop cs.length)
      then (1 : α) else 0)
    (hcsnd : cs.Nodup)
    (hcsket : ∀ a ∈ cs, a.is_dual = false)
    (hstbra : ∀ a ∈ st, a.is_dual = true)
    (hdims : st.map (fun a => a.dim) = cs.map (fun a => a.dim))
    (hu : st.map (fun a => idx.getD (retAxes.indexOf a) 0) ∈
      allIdx (cs.map (fun a => a.dim))) :
    HilbertArray.contractData X E cs retAxes idx =
      X.nparray (X.axesList.map (fun b =>
        if b.H ∈ cs then
          idx.getD (retAxes.indexOf (st.getD (cs.indexOf b.H) ⟨"", 0, false⟩)) 0
        else idx.getD (retAxes.indexOf b) 0)) := by
  have hstlen : st.length = cs.length := by
    have := congrArg List.length hdims
    simpa using this
  have hterm : ∀ w ∈ allIdx (cs.map (fun a => a.dim)),
      X.nparray (X.axesList.map (fun a =>
        if a.H ∈ cs then w.getD (cs.indexOf a.H) 0 else idx.getD (retAxes.indexOf a) 0)) *
      E.nparray (E.axesList.map (fun a =>
        if a ∈ cs then w.getD (cs.indexOf a) 0 else idx.getD (retAxes.indexOf a) 0)) =
      (if flattenIdx (cs.map (fun a => a.dim))
          (st.map (fun a => idx.getD (retAxes.indexOf a) 0)) =
         flattenIdx (cs.map (fun a => a.dim)) w then (1 : α) else 0) *
      X.nparray (X.axesList.map (fun a =>
        if a.H ∈ cs then w.getD (cs.indexOf a.H) 0 else idx.getD (retAxes.indexOf a) 0)) := by
    intro w hw
    rw [mul_comm]
    congr 1
    rw [hEax, List.map_append]
    have hmap1 : st.map (fun a =>
        if a ∈ cs then w.getD (cs.indexOf a) 0 else idx.getD (retAxes.indexOf a) 0) =
        st.map (fun a => idx.getD (retAxes.indexOf a) 0) := by
      apply List.map_congr_left
      intro a ha
      rw [if_neg]
      intro hmem
      have h1 := hcsket a hmem
      have h2 := hstbra a ha
      rw [h2] at h1
      simp at h1
    have hmap2 : cs.map (fun a =>
        if a ∈ cs then w.getD (cs.indexOf a) 0 else idx.getD (retAxes.indexOf a) 0) = w := by
      have hpt : ∀ c ∈ cs, (fun a =>
          if a ∈ cs then w.getD (cs.indexOf a) 0 else idx.getD (retAxes.indexOf a) 0) c =
          w.getD (cs.indexOf c) 0 := by
        intro c hc
        show (if c ∈ cs then w.getD (cs.indexOf c) 0
          else idx.getD (retAxes.indexOf c) 0) = w.getD (cs.indexOf c) 0
        rw [if_pos hc]
      rw [List.map_congr_left hpt]
      exact map_getD_indexOf cs w hcsnd (by rw [allIdx_length_of_mem hw]; simp)
    rw [hmap1, hmap2, hEdata]
    have hlenw : w.length = cs.length := by
      rw [allIdx_length_of_mem hw]; simp
    rw [show (w ++ st.map fun a => idx.getD (retAxes.indexOf a) 0).take cs.length = w from by
      rw [← hlenw]; exact List.take_left _ _]
    rw [show (w ++ st.map fun a => idx.getD (retAxes.indexOf a) 0).drop cs.length =
        st.map (fun a => idx.getD (retAxes.indexOf a) 0) from by
      rw [← hlenw]; exact List.drop_left _ _]
    rw [hdims]
    exact if_congr eq_comm rfl rfl
  unfold HilbertArray.contractData
  rw [List.map_congr_left hterm]
  rw [sum_flatten_delta (cs.map fun a => a.dim)
    (st.map (fun a => idx.getD (retAxes.indexOf a) 0)) hu
    (fun w => X.nparray (X.axesList.map (fun a =>
      if a.H ∈ cs then w.getD (cs.indexOf a.H) 0 else idx.getD (retAxes.indexOf a) 0)))]
  congr 1
  apply List.map_congr_left
  intro b _
  by_cases hb : b.H ∈ cs
  · rw [if_pos hb, if_pos hb]
    have hi : cs.indexOf b.H < st.length := by
      rw [hstlen]
      exact List.indexOf_lt_length.mpr hb
    rw [getD_of_lt _ (by simpa using hi), List.getElem_map, getD_of_lt _ hi]
  · rw [if_neg hb, if_neg hb]

theorem relabel_bra_buffer {α : Type} [CommRing α]
    (X : HilbertArray α) (fromS toS : HilbertSpace)
    (hXwf : X.space.WF) (hfwf : fromS.WF) (htwf : toS.WF)
    (hfk : fromS.ket_set = ∅) (htk : toS.ket_set = ∅)
    (hne : fromS.bra_set.Nonempty)
    (hsub : fromS.bra_set ⊆ X.space.bra_set)
    (hdims : toS.sorted_bras.map (fun a => a.dim) =
      fromS.sorted_bras.map (fun a => a.dim))
    (hdisj : ∀ a ∈ toS.bra_set, ∀ b ∈ X.space.bra_set \ fromS.bra_set, a.label ≠ b.label)
    (horder : X.space.axes.map (substIn fromS.sorted_bras toS.sorted_bras) =
      (⟨X.space.ket_set, (X.space.bra_set \ fromS.bra_set) ∪ toS.bra_set⟩ :
        HilbertSpace).axes) :
    ∃ R, X.relabel fromS toS = .ok R ∧
      R.space = ⟨X.space.ket_set, (X.space.bra_set \ fromS.bra_set) ∪ toS.bra_set⟩ ∧
      ∀ idx ∈ allIdx X.space.shape, R.nparray idx = X.nparray idx := by
  have hdistb : ∀ a ∈ fromS.bra_set, ∀ b ∈ fromS.bra_set, a.label = b.label → a = b :=
    hfwf.2.2.2
  have hcs : msort ((fromS.bra_set.image HilbertAtom.H)).val =
      fromS.sorted_bras.map HilbertAtom.H :=
    HilbertSpace.msort_image_H fromS.bra_set hdistb
  have hstlen : toS.sorted_bras.length = fromS.sorted_bras.length := by
    have := congrArg List.length hdims
    simpa using this
  have hBtne : toS.bra_set.Nonempty := by
    obtain ⟨a, ha⟩ := hne
    have h1 : a ∈ fromS.sorted_bras := HilbertSpace.mem_sorted_bras.mpr ha
    have h2 : 0 < toS.sorted_bras.length := by
      rw [hstlen]
      exact List.length_pos.mpr (List.ne_nil_of_mem h1)
    have h3 : toS.sorted_bras[0] ∈ toS.sorted_bras := List.getElem_mem h2
    exact ⟨toS.sorted_bras[0], HilbertSpace.mem_sorted_bras.mp h3⟩
  have hSEb : ¬ (⟨fromS.bra_set.image HilbertAtom.H, toS.bra_set⟩ :
      HilbertSpace).bra_set = ∅ := by
    show ¬ toS.bra_set = ∅
    exact Finset.nonempty_iff_ne_empty.mp hBtne
  have hSEk : ¬ (⟨fromS.bra_set.image HilbertAtom.H, toS.bra_set⟩ :
      HilbertSpace).ket_set = ∅ := by
    show ¬ fromS.bra_set.image HilbertAtom.H = ∅
    exact Finset.nonempty_iff_ne_empty.mp (hne.image _)
  have heye := eye_mixed (α := α) hSEb hSEk
  have hSE : HilbertSpace.prod fromS.H toS =
      .ok ⟨fromS.bra_set.image HilbertAtom.H, toS.bra_set⟩ := by
    have h0 : HilbertSpace.prod fromS.H toS = .ok ⟨(fromS.H).ket_set ∪ toS.ket_set,
        (fromS.H).bra_set ∪ toS.bra_set⟩ := by
      apply prod_eq_ok
      · intro a _ b hb
        rw [htk] at hb
        exact absurd hb (Finset.not_mem_empty b)
      · intro a ha
        have he : (fromS.H).bra_set = ∅ := by
          show fromS.ket_set.image HilbertAtom.H = ∅
          rw [hfk, Finset.image_empty]
        rw [he] at ha
        exact absurd ha (Finset.not_mem_empty a)
    rw [h0]
    congr 1
    rw [HilbertSpace.eq_iff]
    constructor
    · show fromS.bra_set.image HilbertAtom.H ∪ toS.ket_set =
        fromS.bra_set.image HilbertAtom.H
      rw [htk, Finset.union_empty]
    · show fromS.ket_set.image HilbertAtom.H ∪ toS.bra_set = toS.bra_set
      rw [hfk, Finset.image_empty, Finset.empty_union]
  have hrel : X.relabel fromS toS =
      X.mul (HilbertSpace.eye ⟨fromS.bra_set.image HilbertAtom.H, toS.bra_set⟩) := by
    unfold HilbertArray.relabel
    rw [if_pos ⟨hfk, htk⟩, hSE]
  have hEsp : (HilbertSpace.eye (α := α)
      ⟨fromS.bra_set.image HilbertAtom.H, toS.bra_set⟩).space =
      ⟨fromS.bra_set.image HilbertAtom.H, toS.bra_set⟩ := by
    rw [heye]
  have hC : HilbertArray.defaultC X.space
      (⟨fromS.bra_set.image HilbertAtom.H, toS.bra_set⟩ : HilbertSpace) =
      fromS.bra_set.image HilbertAtom.H := by
    show (X.space.bra_set.image HilbertAtom.H) ∩ fromS.bra_set.image HilbertAtom.H =
      fromS.bra_set.image HilbertAtom.H
    exact Finset.inter_eq_right.mpr (Finset.image_subset_image hsub)
  have hp2 : HilbertSpace.prod
      (HilbertSpace.create_space2 X.space.ket_set
        (X.space.bra_set \ (fromS.bra_set.image HilbertAtom.H).image HilbertAtom.H))
      (HilbertSpace.create_space2
        ((⟨fromS.bra_set.image HilbertAtom.H, toS.bra_set⟩ : HilbertSpace).ket_set \
          fromS.bra_set.image HilbertAtom.H)
        (⟨fromS.bra_set.image HilbertAtom.H, toS.bra_set⟩ : HilbertSpace).bra_set) =
      .ok ⟨X.space.ket_set, (X.space.bra_set \ fromS.bra_set) ∪ toS.bra_set⟩ := by
    have h0 := prod_eq_ok
      (A := HilbertSpace.create_space2 X.space.ket_set
        (X.space.bra_set \ (fromS.bra_set.image HilbertAtom.H).image HilbertAtom.H))
      (B := HilbertSpace.create_space2
        (fromS.bra_set.image HilbertAtom.H \ fromS.bra_set.image HilbertAtom.H)
        toS.bra_set)
      (by intro a _ b hb
          rw [Finset.sdiff_self] at hb
          exact absurd hb (Finset.not_mem_empty b))
      (by intro a ha b hb
          rw [image_H_H] at ha
          exact (hdisj b hb a ha).symm)
    rw [h0]
    congr 1
    rw [HilbertSpace.eq_iff]
    constructor
    · show X.space.ket_set ∪
        (fromS.bra_set.image HilbertAtom.H \ fromS.bra_set.image HilbertAtom.H) =
        X.space.ket_set
      rw [Finset.sdiff_self, Finset.union_empty]
    · show X.space.bra_set \ (fromS.bra_set.image HilbertAtom.H).image HilbertAtom.H ∪
        toS.bra_set = (X.space.bra_set \ fromS.bra_set) ∪ toS.bra_set
      rw [image_H_H]
  have hmul : X.mul (HilbertSpace.eye (α := α)
      ⟨fromS.bra_set.image HilbertAtom.H, toS.bra_set⟩) =
      .ok ⟨⟨X.space.ket_set, (X.space.bra_set \ fromS.bra_set) ∪ toS.bra_set⟩,
        HilbertArray.contractData X
          (HilbertSpace.eye ⟨fromS.bra_set.image HilbertAtom.H, toS.bra_set⟩)
          (msort ((fromS.bra_set.image HilbertAtom.H)).val)
          (⟨X.space.ket_set, (X.space.bra_set \ fromS.bra_set) ∪ toS.bra_set⟩ :
            HilbertSpace).axes⟩ := by
    unfold HilbertArray.mul
    rw [HilbertArray.tensordot_dflt_eq, hEsp, hC, hp2]
  refine ⟨_, hrel.trans hmul, rfl, ?_⟩
  intro idx hidx
  have hidxlen : idx.length = X.space.axes.length := by
    have := allIdx_length_of_mem hidx
    simpa [HilbertSpace.shape] using this
  have hlen_ra : (⟨X.space.ket_set, (X.space.bra_set \ fromS.bra_set) ∪ toS.bra_set⟩ :
      HilbertSpace).axes.length = X.space.axes.length := by
    have := congrArg List.length horder
    simpa using this.symm
  have hretnd : (⟨X.space.ket_set, (X.space.bra_set \ fromS.bra_set) ∪ toS.bra_set⟩ :
      HilbertSpace).axes.Nodup := by
    apply HilbertSpace.axes_nodup
    · exact fun a ha => hXwf.1 a ha
    · intro a ha
      rcases Finset.mem_union.mp ha with h | h
      · exact hXwf.2.1 a (Finset.mem_sdiff.mp h).1
      · exact htwf.2.1 a h
  have hsubstax : ∀ q, q < X.space.axes.length →
      substIn fromS.sorted_bras toS.sorted_bras
        (X.space.axes.getD q ⟨"", 0, false⟩) =
      (⟨X.space.ket_set, (X.space.bra_set \ fromS.bra_set) ∪ toS.bra_set⟩ :
        HilbertSpace).axes.getD q ⟨"", 0, false⟩ := by
    intro q hq
    have h1 := congrArg (fun l => l.getD q (⟨"", 0, false⟩ : HilbertAtom)) horder
    simp only at h1
    rw [getD_of_lt _ (by simpa using hq), List.getElem_map, ← getD_of_lt _ hq] at h1
    exact h1
  have hidxof : ∀ q, q < X.space.axes.length →
      (⟨X.space.ket_set, (X.space.bra_set \ fromS.bra_set) ∪ toS.bra_set⟩ :
        HilbertSpace).axes.indexOf
        (substIn fromS.sorted_bras toS.sorted_bras
          (X.space.axes.getD q ⟨"", 0, false⟩)) = q := by
    intro q hq
    rw [hsubstax q hq, getD_of_lt _ (by omega)]
    exact indexOf_getElem_of_nodup hretnd q (by omega)
  show HilbertArray.contractData X
    (HilbertSpace.eye ⟨fromS.bra_set.image HilbertAtom.H, toS.bra_set⟩)
    (msort ((fromS.bra_set.image HilbertAtom.H)).val)
    (⟨X.space.ket_set, (X.space.bra_set \ fromS.bra_set) ∪ toS.bra_set⟩ :
      HilbertSpace).axes idx = X.nparray idx
  rw [hcs]
  have hmapdim : (fromS.sorted_bras.map HilbertAtom.H).map (fun a => a.dim) =
      fromS.sorted_bras.map (fun a => a.dim) := by
    rw [List.map_map]
    apply List.map_congr_left
    intro a _
    simp
  have hu : toS.sorted_bras.map (fun a => idx.getD
      ((⟨X.space.ket_set, (X.space.bra_set \ fromS.bra_set) ∪ toS.bra_set⟩ :
        HilbertSpace).axes.indexOf a) 0) ∈
      allIdx ((fromS.sorted_bras.map HilbertAtom.H).map (fun a => a.dim)) := by
    rw [hmapdim, mem_allIdx]
    constructor
    · simp [hstlen]
    · intro q hq
      have hq2 : q < toS.sorted_bras.length := by
        rw [hstlen]
        simpa using hq
      rw [getD_of_lt _ (by simpa using hq2), List.getElem_map]
      have hamem : toS.sorted_bras[q] ∈
          (⟨X.space.ket_set, (X.space.bra_set \ fromS.bra_set) ∪ toS.bra_set⟩ :
            HilbertSpace).axes := by
        rw [HilbertSpace.mem_axes]
        right
        exact Finset.mem_union_right _
          (HilbertSpace.mem_sorted_bras.mp (List.getElem_mem hq2))
      have hq3 : (⟨X.space.ket_set, (X.space.bra_set \ fromS.bra_set) ∪ toS.bra_set⟩ :
          HilbertSpace).axes.indexOf toS.sorted_bras[q] <
          (⟨X.space.ket_set, (X.space.bra_set \ fromS.bra_set) ∪ toS.bra_set⟩ :
            HilbertSpace).axes.length := List.indexOf_lt_length.mpr hamem
      have hq4 : (⟨X.space.ket_set, (X.space.bra_set \ fromS.bra_set) ∪ toS.bra_set⟩ :
          HilbertSpace).axes.indexOf toS.sorted_bras[q] < X.space.axes.length := by
        omega
      have hvx := (mem_allIdx.mp hidx).2
        ((⟨X.space.ket_set, (X.space.bra_set \ fromS.bra_set) ∪ toS.bra_set⟩ :
          HilbertSpace).axes.indexOf toS.sorted_bras[q])
        (by simpa [HilbertSpace.shape] using hq4)
      rw [HilbertSpace.shape_getD hq4] at hvx
      have hsdim : (X.space.axes.getD ((⟨X.space.ket_set,
          (X.space.bra_set \ fromS.bra_set) ∪ toS.bra_set⟩ :
          HilbertSpace).axes.indexOf toS.sorted_bras[q])
          ⟨"", 0, false⟩).dim = toS.sorted_bras[q].dim := by
        have h6 := hsubstax ((⟨X.space.ket_set,
          (X.space.bra_set \ fromS.bra_set) ∪ toS.bra_set⟩ :
          HilbertSpace).axes.indexOf toS.sorted_bras[q]) hq4
        rw [getD_of_lt _ hq3, List.getElem_indexOf hq3] at h6
        have h7 := substIn_dim hdims
          (X.space.axes.getD ((⟨X.space.ket_set,
            (X.space.bra_set \ fromS.bra_set) ∪ toS.bra_set⟩ :
            HilbertSpace).axes.indexOf toS.sorted_bras[q])
            ⟨"", 0, false⟩)
        rw [h6] at h7
        exact h7.symm
      rw [hsdim] at hvx
      have hdim2 : toS.sorted_bras[q].dim =
          (fromS.sorted_bras.map (fun a => a.dim)).getD q 0 := by
        have h8 := congrArg (fun l => l.getD q 0) hdims
        simp only at h8
        rw [← h8, getD_of_lt _ (by simpa using hq2), List.getElem_map]
      rw [← hdim2]
      exact hvx
  rw [contractData_eye_right X _ toS.sorted_bras (fromS.sorted_bras.map HilbertAtom.H) _ idx
    (by rw [HilbertArray.axesList, hEsp]
        show msort ((fromS.bra_set.image HilbertAtom.H)).val ++ toS.sorted_bras = _
        rw [hcs])
    (by intro j
        rw [heye]
        show (if flattenIdx ((msort ((fromS.bra_set.image HilbertAtom.H)).val).map
            (fun a => a.dim))
            (j.take (msort ((fromS.bra_set.image HilbertAtom.H)).val).length) =
          flattenIdx ((⟨fromS.bra_set.image HilbertAtom.H, toS.bra_set⟩ :
            HilbertSpace).sorted_bras.map (fun a => a.dim))
            (j.drop (msort ((fromS.bra_set.image HilbertAtom.H)).val).length)
          then (1 : α) else 0) = _
        rw [hcs]
        rfl)
    (List.Nodup.map HilbertAtom.H_injective (HilbertSpace.sorted_bras_nodup fromS))
    (by intro a ha
        obtain ⟨b, hb, rfl⟩ := List.mem_map.mp ha
        simp [hfwf.2.1 b (HilbertSpace.mem_sorted_bras.mp hb)])
    (fun a ha => htwf.2.1 a (HilbertSpace.mem_sorted_bras.mp ha))
    (by rw [hmapdim]; exact hdims)
    hu]
  congr 1
  have haxl : X.axesList = X.space.axes := rfl
  rw [haxl]
  have hfeq : (fun b => if b.H ∈ fromS.sorted_bras.map HilbertAtom.H then
      idx.getD ((⟨X.space.ket_set, (X.space.bra_set \ fromS.bra_set) ∪ toS.bra_set⟩ :
        HilbertSpace).axes.indexOf
        (toS.sorted_bras.getD ((fromS.sorted_bras.map HilbertAtom.H).indexOf b.H)
          ⟨"", 0, false⟩)) 0
    else idx.getD ((⟨X.space.ket_set, (X.space.bra_set \ fromS.bra_set) ∪ toS.bra_set⟩ :
      HilbertSpace).axes.indexOf b) 0) =
    (fun c => idx.getD ((⟨X.space.ket_set,
      (X.space.bra_set \ fromS.bra_set) ∪ toS.bra_set⟩ :
      HilbertSpace).axes.indexOf c) 0) ∘
      substIn fromS.sorted_bras toS.sorted_bras := by
    funext b
    show _ = idx.getD ((⟨X.space.ket_set,
      (X.space.bra_set \ fromS.bra_set) ∪ toS.bra_set⟩ :
      HilbertSpace).axes.indexOf (substIn fromS.sorted_bras toS.sorted_bras b)) 0
    by_cases hb : b ∈ fromS.sorted_bras
    · have hb2 : b.H ∈ fromS.sorted_bras.map HilbertAtom.H :=
        List.mem_map.mpr ⟨b, hb, rfl⟩
      rw [if_pos hb2]
      have hio : (fromS.sorted_bras.map HilbertAtom.H).indexOf b.H =
          fromS.sorted_bras.indexOf b :=
        indexOf_map_of_injective HilbertAtom.H_injective fromS.sorted_bras b
      rw [hio]
      simp only [substIn, if_pos hb]
    · have hb2 : ¬ b.H ∈ fromS.sorted_bras.map HilbertAtom.H := by
        intro hmem
        obtain ⟨c, hc, he⟩ := List.mem_map.mp hmem
        exact hb (HilbertAtom.H_injective he ▸ hc)
      rw [if_neg hb2]
      simp only [substIn, if_neg hb]
  rw [hfeq, ← List.map_map, horder]
  exact map_getD_indexOf _ idx hretnd (by omega)

def sampleX6 : HilbertArray ℤ :=
  ⟨⟨{qubitA, qubitB}, ∅⟩, fun idx => (flattenIdx [2, 2] idx : ℤ)⟩

/-- C6: for pure-ket from/to spaces, relabel is exactly the eye array on
(to x from.H) multiplied on the left; for pure-bra pairs it is the eye
array on (from.H x to) multiplied on the right; a mixed bra/ket pair is
rejected with BraKetMixtureError; and in both pure cases, when the
relabeling leaves the relative axis order unchanged (the substituted
axis list already is the canonical axis list of the result space), the
result exists and its raw buffer agrees entrywise with X's buffer. -/
theorem C6_relabel_eye_mult {α : Type} [CommRing α]
    (X : HilbertArray α) (A B : HilbertSpace) :
    (A.bra_set = ∅ → B.bra_set = ∅ → A.ket_set ≠ ∅ →
      X.relabel A B = match HilbertSpace.prod B A.H with
        | .error e => .error e
        | .ok S => (HilbertSpace.eye S).mul X) ∧
    (A.ket_set = ∅ → B.ket_set = ∅ →
      X.relabel A B = match HilbertSpace.prod A.H B with
        | .error e => .error e
        | .ok S => X.mul (HilbertSpace.eye S)) ∧
    (¬ (A.ket_set = ∅ ∧ B.ket_set = ∅) → ¬ (A.bra_set = ∅ ∧ B.bra_set = ∅) →
      X.relabel A B = .error (.BraKetMixtureError
        "from_space and to_space must both be bras or both be kets")) ∧
    (X.space.WF → A.WF → B.WF → A.bra_set = ∅ → B.bra_set = ∅ →
      A.ket_set.Nonempty → A.ket_set ⊆ X.space.ket_set →
      B.sorted_kets.map (fun a => a.dim) = A.sorted_kets.map (fun a => a.dim) →
      (∀ a ∈ B.ket_set, ∀ b ∈ X.space.ket_set \ A.ket_set, a.label ≠ b.label) →
      X.space.axes.map (substIn A.sorted_kets B.sorted_kets) =
        (⟨B.ket_set ∪ (X.space.ket_set \ A.ket_set), X.space.bra_set⟩ :
          HilbertSpace).axes →
      ∃ R, X.relabel A B = .ok R ∧
        R.space = ⟨B.ket_set ∪ (X.space.ket_set \ A.ket_set), X.space.bra_set⟩ ∧
        ∀ idx ∈ allIdx X.space.shape, R.nparray idx = X.nparray idx) ∧
    (X.space.WF → A.WF → B.WF → A.ket_set = ∅ → B.ket_set = ∅ →
      A.bra_set.Nonempty → A.bra_set ⊆ X.space.bra_set →
      B.sorted_bras.map (fun a => a.dim) = A.sorted_bras.map (fun a => a.dim) →
      (∀ a ∈ B.bra_set, ∀ b ∈ X.space.bra_set \ A.bra_set, a.label ≠ b.label) →
      X.space.axes.map (substIn A.sorted_bras B.sorted_bras) =
        (⟨X.space.ket_set, (X.space.bra_set \ A.bra_set) ∪ B.bra_set⟩ :
          HilbertSpace).axes →
      ∃ R, X.relabel A B = .ok R ∧
        R.space = ⟨X.space.ket_set, (X.space.bra_set \ A.bra_set) ∪ B.bra_set⟩ ∧
        ∀ idx ∈ allIdx X.space.shape, R.nparray idx = X.nparray idx) := by
  refine ⟨?_, ?_, ?_, ?_, ?_⟩
  · intro hab hbb hne
    unfold HilbertArray.relabel
    rw [if_neg (fun h => hne h.1), if_pos ⟨hab, hbb⟩]
  · intro hak hbk
    unfold HilbertArray.relabel
    rw [if_pos ⟨hak, hbk⟩]
  · intro h1 h2
    unfold HilbertArray.relabel
    rw [if_neg h1, if_neg h2]
  · intro hXwf hfwf htwf hab hbb hne hsub hdims hdisj horder
    exact relabel_ket_buffer X A B hXwf hfwf htwf hab hbb hne hsub hdims hdisj horder
  · intro hXwf hfwf htwf hak hbk hne hsub hdims hdisj horder
    exact relabel_bra_buffer X A B hXwf hfwf htwf hak hbk hne hsub hdims hdisj horder

/-- C6 witness: relabeling the ket atom b to c on a concrete integer
array over the two-qubit ket space keeps the relative axis order
(a before b becomes a before c), so the relabeled array exists with the
expected space and an unchanged raw buffer. -/
theorem C6_relabel_eye_mult_witness :
    ∃ R, sampleX6.relabel ⟨{qubitB}, ∅⟩ ⟨{qubitC}, ∅⟩ = .ok R ∧
      R.space = ⟨{qubitC} ∪ ({qubitA, qubitB} \ {qubitB}),
        (∅ : Finset HilbertAtom)⟩ ∧
      ∀ idx ∈ allIdx sampleX6.space.shape, R.nparray idx = sampleX6.nparray idx :=
  (C6_relabel_eye_mult sampleX6 ⟨{qubitB}, ∅⟩ ⟨{qubitC}, ∅⟩).2.2.2.1
    (by decide) (by decide) (by decide) rfl rfl
    (by decide) (by decide) (by decide) (by decide) (by decide)
